import Mathlib

/-!
Verification of `collect_inventory.py`, a PBIP (Power BI project export)
inventory collector.  The development shallowly embeds the script's pure
logic: Python strings are Lean `String`s (`String.data : List Char`),
filesystem paths are lists of path components (`List String`), directory
trees are a rose tree `FSNode`, and the stateful orchestrator `collect`
is modelled as an explicit state-passing function over an abstract
destination-filesystem record `DestFS`.
-/

namespace CollectInventory

/-! ## Python string primitives -/

/-- Python's `str.isspace` character class (the Unicode whitespace set
used by `str.strip()` and `str.isspace()`), as an explicit list. -/
def pySpaceChars : List Char :=
  ['\t', '\n', '\x0b', '\x0c', '\r', '\x1c', '\x1d', '\x1e', '\x1f', ' ',
   '\u0085', ' ', ' ',
   ' ', ' ', ' ', ' ', ' ', ' ', ' ',
   ' ', ' ', ' ', ' ',
   ' ', ' ', ' ', ' ', '　']

def pyIsSpace (c : Char) : Bool := pySpaceChars.contains c

/-- Drop trailing characters satisfying `p` (the tail end of Python's
`str.strip` / `str.rstrip`). -/
def dropTrailing (p : Char → Bool) (l : List Char) : List Char :=
  (l.reverse.dropWhile p).reverse

/-- Python `s.strip()` with no arguments: remove leading and trailing
whitespace characters. -/
def pyStrip (l : List Char) : List Char :=
  dropTrailing pyIsSpace (l.dropWhile pyIsSpace)

/-- Index of the last `'.'` in a name, as Python `name.rfind('.')`
(`none` for Python's `-1`). -/
def rfindDot (l : List Char) : Option Nat :=
  match l with
  | [] => none
  | c :: rest =>
    match rfindDot rest with
    | some i => some (i + 1)
    | none => if c = '.' then some 0 else none

/-- `pathlib.PurePath.stem` of a file name: everything before the last
dot, except that a leading-dot-only or trailing-dot name keeps the whole
name (Python: `name[:i]` when `0 < i < len(name) - 1`, else `name`). -/
def pyStem (name : String) : String :=
  match rfindDot name.data with
  | none => name
  | some i => if 0 < i ∧ i < name.data.length - 1 then ⟨name.data.take i⟩ else name

/-- `pathlib.PurePath.suffix` of a file name (Python: `name[i:]` when
`0 < i < len(name) - 1`, else `""`). -/
def pySuffix (name : String) : String :=
  match rfindDot name.data with
  | none => ""
  | some i => if 0 < i ∧ i < name.data.length - 1 then ⟨name.data.drop i⟩ else ""

/-- fnmatch-style glob `*.<ext>`: the name ends with the literal
(case-sensitive) extension text, e.g. `".pbip"`, `".json"`. -/
def matchesExt (ext name : String) : Bool := ext.data.isSuffixOf name.data

/-! ## Name Sanitizer (`sanitize_pbip_base`) -/

/-- `WINDOWS_FORBIDDEN = set('<>:"/\\|?*')` from the source. -/
def WINDOWS_FORBIDDEN : List Char := ['<', '>', ':', '"', '/', '\\', '|', '?', '*']

/-- Per-character replacement step of `sanitize_pbip_base`: reserved or
control characters and whitespace become `'_'`, everything else is kept. -/
def sanitizeChar (c : Char) : Char :=
  if WINDOWS_FORBIDDEN.contains c then '_'
  else if c.toNat < 32 then '_'
  else if pyIsSpace c then '_'
  else c

/-- The characters removed from the tail by `cleaned.rstrip('._-')`. -/
def rstripSet : List Char := ['.', '_', '-']

/-- `sanitize_pbip_base(stem)`: strip surrounding whitespace, replace
unsafe characters by `'_'`, strip trailing `.`/`_`/`-`, and fall back to
`"pbip"` when the result is empty. -/
def sanitize_pbip_base (stem : String) : String :=
  let cleaned := (pyStrip stem.data).map sanitizeChar
  let r := dropTrailing (fun c => rstripSet.contains c) cleaned
  if r = [] then "pbip" else ⟨r⟩

/-! ## C3: properties of the sanitizer output -/

/-- A character is "clean" when the sanitizer would keep it unchanged:
not reserved, not a control character, not whitespace. -/
def cleanChar (c : Char) : Prop :=
  WINDOWS_FORBIDDEN.contains c = false ∧ 32 ≤ c.toNat ∧ pyIsSpace c = false

/-! ## Decimal rendering of the collision counter (Python f-string `{i}`) -/

def digitChar (d : Nat) : Char := Char.ofNat (48 + d)

/-- Decimal digits of `n`, least significant first, with explicit fuel
(`n + 1` always suffices, see `revDigitsVal_natDigitsRev`). -/
def natDigitsRevAux : Nat → Nat → List Char
  | 0, _ => []
  | fuel + 1, n =>
    if n < 10 then [digitChar n]
    else digitChar (n % 10) :: natDigitsRevAux fuel (n / 10)

def natDigitsRev (n : Nat) : List Char := natDigitsRevAux (n + 1) n

/-- Decimal rendering of a natural number, as Python's `str(i)`. -/
def natRepr (n : Nat) : String := ⟨(natDigitsRev n).reverse⟩

def revDigitsVal : List Char → Nat
  | [] => 0
  | c :: cs => (c.toNat - 48) + 10 * revDigitsVal cs

/-! ## `next_available_path`: collision-safe destination resolution -/

/-- The candidate name probed at counter `i`:
`f"{stem}-{i}{suffix}"` from the source. -/
def probeName (stem suffix : String) (i : Nat) : String :=
  stem ++ "-" ++ natRepr i ++ suffix

/-- The `while True` probe loop of `next_available_path`, embedded with
explicit fuel; `searchFree_total_fuel` below shows the fuel used by
`next_available_path` always suffices, so the fuel-exhausted base case is
never reached. -/
def searchFree (l : List String) (stem suffix : String) : Nat → Nat → String
  | 0, i => probeName stem suffix i
  | f + 1, i =>
    let c := probeName stem suffix i
    if l.contains c then searchFree l stem suffix f (i + 1) else c

/-- `next_available_path(target)`: return `target` when nothing exists
there, otherwise probe `stem-1suffix`, `stem-2suffix`, … until an unused
name is found.  The existing entries of the destination directory are
modelled as the list `l` of names. -/
def next_available_path (l : List String) (name : String) : String :=
  if l.contains name then
    searchFree l (pyStem name) (pySuffix name) (l.length + 1) 1
  else name

def clLt : List Char → List Char → Bool
  | [], [] => false
  | [], _ :: _ => true
  | _ :: _, [] => false
  | a :: as, b :: bs =>
    if a.toNat < b.toNat then true
    else if b.toNat < a.toNat then false
    else clLt as bs

/-- Python string `<` (code-point lexicographic). -/
def strLtB (a b : String) : Bool := clLt a.data b.data

/-- Python tuple-of-strings `<`: how `sorted` orders `pathlib` paths. -/
def partsLtB : List String → List String → Bool
  | [], [] => false
  | [], _ :: _ => true
  | _ :: _, [] => false
  | a :: as, b :: bs =>
    if strLtB a b then true
    else if strLtB b a then false
    else partsLtB as bs

/-! ## `sorted(xs)[0]` as a stable minimum

`pyMinBy lt l` models `sorted(l, key=lt-order)[0]` (`none` on the empty
list): Python's sort is stable, so the head of the sorted list is the
first-encountered minimal element, which is what the fold computes. -/

def minFold {α : Type} (lt : α → α → Bool) (x : α) (xs : List α) : α :=
  xs.foldl (fun acc y => if lt y acc then y else acc) x

def pyMinBy {α : Type} (lt : α → α → Bool) : List α → Option α
  | [] => none
  | x :: xs => some (minFold lt x xs)

/-! ## Filesystem trees and glob traversal

A directory tree as seen by the script.  `subdirsPre` lists every
directory of a subtree in depth-first preorder together with its
children, which is the order `pathlib`'s recursive glob visits
directories; a match of `rglob("*.ext")` is then a child of one of those
directories whose name ends in `.ext` (both files and directories can
match a glob pattern). -/

inductive FSNode where
  | file (name : String)
  | dir (name : String) (children : List FSNode)

def FSNode.nameOf : FSNode → String
  | .file n => n
  | .dir n _ => n

def FSNode.isDirN : FSNode → Bool
  | .file _ => false
  | .dir _ _ => true

/-- A glob hit: the path of the matched entry (`rel` is relative to the
search root unless an absolute base was supplied), whether the matched
entry is itself a directory, and the children of the directory holding
the match (the siblings seen by `p.parent`). -/
structure GHit where
  rel : List String
  isDir : Bool
  sibs : List FSNode

mutual

/-- All directories of the subtree rooted at a node, in depth-first
preorder, as (path, children) pairs; `rp` is the path of the node's
parent. -/
def subdirsPre (rp : List String) : FSNode → List (List String × List FSNode)
  | .file _ => []
  | .dir n cs => (rp ++ [n], cs) :: subdirsPreList (rp ++ [n]) cs

def subdirsPreList (rp : List String) : List FSNode → List (List String × List FSNode)
  | [] => []
  | c :: cs => subdirsPre rp c ++ subdirsPreList rp cs

end

/-- The directories visited by a recursive glob rooted at a directory
with children `cs`, the root itself (path `[]`) first. -/
def dirsFromRoot (cs : List FSNode) : List (List String × List FSNode) :=
  ([], cs) :: subdirsPreList [] cs

/-- Matches of `*.ext` among the children of one directory. -/
def matchesIn (ext : String) (entry : List String × List FSNode) : List GHit :=
  entry.2.filterMap (fun c =>
    if matchesExt ext c.nameOf then some ⟨entry.1 ++ [c.nameOf], c.isDirN, entry.2⟩ else none)

/-- All matches of `*.ext` over a directory list, in visit order. -/
def rglobHits (dirs : List (List String × List FSNode)) (ext : String) : List GHit :=
  dirs.flatMap (matchesIn ext)

/-- Comparison of hits as Python compares the underlying `Path` objects:
by the tuple of path components. -/
def hitLt (a b : GHit) : Bool := partsLtB a.rel b.rel

/-- `(p.parent / f"{p.stem}.Report").is_dir() and (p.parent /
f"{p.stem}.SemanticModel").is_dir()` for a hit `p`. -/
def hasStdSiblings (h : GHit) : Bool :=
  let stem := pyStem (h.rel.getLastD "")
  (h.sibs.any (fun c => c.isDirN && c.nameOf == stem ++ ".Report")) &&
  (h.sibs.any (fun c => c.isDirN && c.nameOf == stem ++ ".SemanticModel"))

/-- `find_first_pbip(project_dir)` over the children `cs` of the project
directory.  `sorted(xs)[0]` is modelled by `pyMinBy hitLt` (stable sort:
the head of the sorted list is the first minimal element). -/
def find_first_pbip (cs : List FSNode) : Option GHit :=
  match pyMinBy hitLt (rglobHits [([], cs)] ".pbip") with
  | some h => some h
  | none =>
    match pyMinBy hitLt ((rglobHits (dirsFromRoot cs) ".pbip").filter hasStdSiblings) with
    | some h => some h
    | none => pyMinBy hitLt (rglobHits (dirsFromRoot cs) ".pbip")

/-! ## Artifact Gatherer (`gather_candidates`) -/

/-- The category-root folders for one category: the exact-named folder
when it exists as a directory, otherwise every immediate child directory
matching the suffix pattern (`*.Report` / `*.SemanticModel`). -/
def categoryRoots (sibs : List FSNode) (expected : String) (sfx : String) : List FSNode :=
  match sibs.find? (fun c => c.isDirN && c.nameOf == expected) with
  | some d => [d]
  | none => sibs.filter (fun c => matchesExt sfx c.nameOf && c.isDirN)

/-- `root.rglob("*.ext")` for one category root `r`, with `basePath` the
path of the directory containing `r` (the pbip's parent). -/
def rootRglob (basePath : List String) (r : FSNode) (ext : String) : List GHit :=
  rglobHits (subdirsPre basePath r) ext

structure Gathered where
  report_json : List GHit
  report_tmdl : List GHit
  sem_json : List GHit
  sem_tmdl : List GHit

/-- `gather_candidates(pbip_root, pbip)`: `pbipDirPath` is the path of
the pbip's parent directory, `sibs` its children, `stem` the pbip's
stem. -/
def gather_candidates (pbipDirPath : List String) (sibs : List FSNode) (stem : String) :
    Gathered :=
  let report_roots := categoryRoots sibs (stem ++ ".Report") ".Report"
  let sem_roots := categoryRoots sibs (stem ++ ".SemanticModel") ".SemanticModel"
  { report_json := report_roots.flatMap (fun r => rootRglob pbipDirPath r ".json")
    report_tmdl := report_roots.flatMap (fun r => rootRglob pbipDirPath r ".tmdl")
    sem_json := sem_roots.flatMap (fun r => rootRglob pbipDirPath r ".json")
    sem_tmdl := sem_roots.flatMap (fun r => rootRglob pbipDirPath r ".tmdl") }

/-! ## Destination state and the Collision-Safe Copier -/

/-- The four leaf category directories of the inventory. -/
inductive LeafT where
  | reportJson
  | reportTmdl
  | semJson
  | semTmdl
deriving DecidableEq

/-- Abstract destination-side filesystem state: the set of directories
that exist (as a duplicate-free list of paths), the entries of each of
the four leaf category directories (as name lists), and the manifest
file's content when it exists. -/
structure DestFS where
  dirs : List (List String)
  reportJson : List String
  reportTmdl : List String
  semJson : List String
  semTmdl : List String
  manifestFile : Option (List (List String))
deriving DecidableEq

def DestFS.leafOf (fs : DestFS) : LeafT → List String
  | .reportJson => fs.reportJson
  | .reportTmdl => fs.reportTmdl
  | .semJson => fs.semJson
  | .semTmdl => fs.semTmdl

/-- Diagnostic output lines (`print` calls) of the script. -/
inductive Diag where
  | foundProjects (n : Nat) (root : List String)
  | skipNoPbip (projName : String)
  | skipMissing (src : List String)
  | skipNotFile (src : List String)
  | copy (src : List String) (dst : List String)
  | writingManifest (path : List String)
deriving DecidableEq

/-- A candidate file as the copier sees it: its path and the results of
the `src.exists()` / `src.is_file()` probes. -/
structure Cand where
  path : List String
  ex : Bool
  isf : Bool
deriving DecidableEq

/-- All nonempty ancestor paths of `p`, shortest first. -/
def pathAncestors (p : List String) : List (List String) :=
  (List.range p.length).map (fun i => p.take (i + 1))

def insertDir (dirs : List (List String)) (d : List String) : List (List String) :=
  if dirs.contains d then dirs else dirs ++ [d]

/-- `Path.mkdir(parents=True, exist_ok=True)`: create the directory and
every missing ancestor. -/
def ensure_dir (dirs : List (List String)) (p : List String) : List (List String) :=
  (pathAncestors p).foldl insertDir dirs

/-- `build_dest_name(pbip_base, src)`:
`f"{pbip_base}_{src.stem}{src.suffix}"`. -/
def build_dest_name (pbipBase : String) (srcName : String) : String :=
  pbipBase ++ "_" ++ pyStem srcName ++ pySuffix srcName

structure CopyResult where
  leaf : List String
  dirs : List (List String)
  diags : List Diag
  performed : List (List String × String)
deriving DecidableEq

/-- `copy_many(files, dest_dir)`: per candidate, skip missing or
non-regular sources, otherwise resolve the destination with
`next_available_path` and (unless `dry`) create the destination
directory and copy, which adds the resolved name to the leaf's
entries.  `performed` records the actual `shutil.copy2` calls. -/
def copy_many (dry verbose : Bool) (pbipBase : String) (destDir : List String) :
    List Cand → List String → List (List String) → CopyResult
  | [], leaf, dirs => ⟨leaf, dirs, [], []⟩
  | c :: rest, leaf, dirs =>
    if c.ex = false then
      let r := copy_many dry verbose pbipBase destDir rest leaf dirs
      ⟨r.leaf, r.dirs, (if verbose then [Diag.skipMissing c.path] else []) ++ r.diags,
        r.performed⟩
    else if c.isf = false then
      let r := copy_many dry verbose pbipBase destDir rest leaf dirs
      ⟨r.leaf, r.dirs, (if verbose then [Diag.skipNotFile c.path] else []) ++ r.diags,
        r.performed⟩
    else
      let dstName := build_dest_name pbipBase (c.path.getLastD "")
      let resolved := next_available_path leaf dstName
      let diag := if verbose then [Diag.copy c.path (destDir ++ [resolved])] else []
      if dry then
        let r := copy_many dry verbose pbipBase destDir rest leaf dirs
        ⟨r.leaf, r.dirs, diag ++ r.diags, r.performed⟩
      else
        let r := copy_many dry verbose pbipBase destDir rest (leaf ++ [resolved])
          (ensure_dir dirs destDir)
        ⟨r.leaf, r.dirs, diag ++ r.diags, (c.path, resolved) :: r.performed⟩

/-! ## Inventory Orchestrator (`collect`) -/

/-- `inv_base = root.parent / "inventory"`. -/
def invBase (root : List String) : List String := root.dropLast ++ ["inventory"]

def leafRel : LeafT → List String
  | .reportJson => ["report", "json_files"]
  | .reportTmdl => ["report", "tmdl_files"]
  | .semJson => ["semanticmodel", "json_files"]
  | .semTmdl => ["semanticmodel", "tmdl_files"]

def leafDirPath (root : List String) (L : LeafT) : List String :=
  invBase root ++ leafRel L

/-- `p.relative_to(base)`: strip the prefix, or fail. -/
def relativeTo (base p : List String) : Option (List String) :=
  if base.isPrefixOf p then some (p.drop base.length) else none

/-- `str(Path(parts))` for a relative path. -/
def joinParts (parts : List String) : String := String.intercalate "/" parts

def FSNode.childrenOf : FSNode → List FSNode
  | .file _ => []
  | .dir _ cs => cs

/-- A gathered glob hit as a copier candidate: entries enumerated from
the live tree exist, and are regular files exactly when they are not
directories. -/
def candOf (h : GHit) : Cand := ⟨h.rel, true, !h.isDir⟩

/-- One iteration of the project loop in `collect`: locate the
descriptor, record the manifest row, gather candidates, and run the four
copier invocations.  Returns the updated state, the diagnostics, the
performed copies tagged with their leaf, and the manifest rows added. -/
def processProject (root : List String) (dry verbose : Bool) (fs : DestFS)
    (pn : String) (cs : List FSNode) :
    DestFS × List Diag × List (LeafT × List String × String) × List (String × String) :=
  match find_first_pbip cs with
  | none => (fs, if verbose then [Diag.skipNoPbip pn] else [], [], [])
  | some h =>
    let pbipAbs := root ++ pn :: h.rel
    let name := h.rel.getLastD ""
    let pbip_base := sanitize_pbip_base (pyStem name)
    let parentPath := pbipAbs.dropLast
    let project_rel :=
      match relativeTo root parentPath with
      | some r => joinParts r
      | none => joinParts [pn]
    let g := gather_candidates parentPath h.sibs (pyStem name)
    let r1 := copy_many dry verbose pbip_base (leafDirPath root .reportJson)
      (g.report_json.map candOf) fs.reportJson fs.dirs
    let r2 := copy_many dry verbose pbip_base (leafDirPath root .reportTmdl)
      (g.report_tmdl.map candOf) fs.reportTmdl r1.dirs
    let r3 := copy_many dry verbose pbip_base (leafDirPath root .semJson)
      (g.sem_json.map candOf) fs.semJson r2.dirs
    let r4 := copy_many dry verbose pbip_base (leafDirPath root .semTmdl)
      (g.sem_tmdl.map candOf) fs.semTmdl r3.dirs
    ({ fs with
        reportJson := r1.leaf,
        reportTmdl := r2.leaf,
        semJson := r3.leaf,
        semTmdl := r4.leaf,
        dirs := r4.dirs },
      r1.diags ++ r2.diags ++ r3.diags ++ r4.diags,
      r1.performed.map (fun pr => (LeafT.reportJson, pr.1, pr.2)) ++
        r2.performed.map (fun pr => (LeafT.reportTmdl, pr.1, pr.2)) ++
        r3.performed.map (fun pr => (LeafT.semJson, pr.1, pr.2)) ++
        r4.performed.map (fun pr => (LeafT.semTmdl, pr.1, pr.2)),
      [(project_rel, name)])

/-- The project loop of `collect`. -/
def collectProjects (root : List String) (dry verbose : Bool) :
    List FSNode → DestFS →
    DestFS × List Diag × List (LeafT × List String × String) × List (String × String)
  | [], fs => (fs, [], [], [])
  | p :: rest, fs =>
    let r1 := processProject root dry verbose fs p.nameOf p.childrenOf
    let r2 := collectProjects root dry verbose rest r1.1
    (r2.1, r1.2.1 ++ r2.2.1, r1.2.2.1 ++ r2.2.2.1, r1.2.2.2 ++ r2.2.2.2)

structure RunResult where
  fs : DestFS
  diags : List Diag
  performed : List (LeafT × List String × String)
deriving DecidableEq

/-- `collect(root, dry_run, verbose)`: make the four leaf directories
(unconditionally), iterate the projects, then write the manifest unless
`dry`.  `root` is the root directory's path, `rootChildren` its
entries, `fs0` the initial destination state. -/
def collect (root : List String) (rootChildren : List FSNode) (dry verbose : Bool)
    (fs0 : DestFS) : RunResult :=
  let dirs1 := [LeafT.reportJson, LeafT.reportTmdl, LeafT.semJson, LeafT.semTmdl].foldl
    (fun ds L => ensure_dir ds (leafDirPath root L)) fs0.dirs
  let fs1 := { fs0 with dirs := dirs1 }
  let projects := rootChildren.filter FSNode.isDirN
  let d0 := if verbose then [Diag.foundProjects projects.length root] else []
  let r := collectProjects root dry verbose projects fs1
  let d2 := if verbose then [Diag.writingManifest (invBase root ++ ["manifest.csv"])] else []
  if dry then
    ⟨r.1, d0 ++ r.2.1 ++ d2, r.2.2.1⟩
  else
    ⟨{ r.1 with
        dirs := ensure_dir r.1.dirs (invBase root),
        manifestFile := some (["project_folder", "pbip_file"] ::
          r.2.2.2.map (fun row => [row.1, row.2])) },
      d0 ++ r.2.1 ++ d2, r.2.2.1⟩

/-! ## C2: no destination file is ever overwritten -/

/-- The destination names of the performed copies that target leaf `L`. -/
def perfNames (L : LeafT) (perf : List (LeafT × List String × String)) : List String :=
  perf.filterMap (fun t => if t.1 = L then some t.2.2 else none)

/-! ## C6: dry-run planning versus real copying -/

/-- The planned copy operations recorded in the diagnostics (the
`Copy: src -> dst` lines). -/
def plansOf (diags : List Diag) : List (List String × List String) :=
  diags.filterMap (fun d => match d with
    | .copy s t => some (s, t)
    | _ => none)

/-- The copy operations a dry run plans: every destination is resolved
against the (unchanging) initial directory contents. -/
def dryPlans (base : String) : List Cand → List String → List (List String × String)
  | [], _ => []
  | c :: rest, leaf =>
    if c.ex = false then dryPlans base rest leaf
    else if c.isf = false then dryPlans base rest leaf
    else (c.path, next_available_path leaf (build_dest_name base (c.path.getLastD ""))) ::
      dryPlans base rest leaf

/-! ## Basic lemmas about the string primitives -/

theorem dropTrailing_mem {p : Char → Bool} {l : List Char} {c : Char}
    (h : c ∈ dropTrailing p l) : c ∈ l := by
  unfold dropTrailing at h
  have h1 : c ∈ l.reverse.dropWhile p := (List.mem_reverse).1 h
  exact (List.mem_reverse).1 ((List.dropWhile_sublist p).mem h1)

theorem dropWhile_head_not {p : Char → Bool} {l : List Char} {c : Char}
    {rest : List Char} (h : l.dropWhile p = c :: rest) : p c = false := by
  induction l with
  | nil => simp at h
  | cons a as ih =>
    by_cases hp : p a
    · rw [List.dropWhile_cons_of_pos hp] at h; exact ih h
    · rw [List.dropWhile_cons_of_neg hp] at h
      cases h; simpa using hp

theorem dropTrailing_getLast_not {p : Char → Bool} {l : List Char} {c : Char}
    (h : (dropTrailing p l).getLast? = some c) : p c = false := by
  unfold dropTrailing at h
  rw [← List.head?_reverse, List.reverse_reverse] at h
  cases hdw : l.reverse.dropWhile p with
  | nil => rw [hdw] at h; simp at h
  | cons a rest =>
    rw [hdw] at h
    simp at h
    subst h
    exact dropWhile_head_not hdw

theorem dropWhile_eq_self_of_none {p : Char → Bool} {l : List Char}
    (h : ∀ c ∈ l, p c = false) : l.dropWhile p = l := by
  cases l with
  | nil => rfl
  | cons a as => exact List.dropWhile_cons_of_neg (by simp [h a (by simp)])

theorem dropTrailing_eq_self_of_none {p : Char → Bool} {l : List Char}
    (h : ∀ c ∈ l, p c = false) : dropTrailing p l = l := by
  unfold dropTrailing
  rw [dropWhile_eq_self_of_none (fun c hc => h c ((List.mem_reverse).1 hc))]
  exact List.reverse_reverse l

theorem pyStrip_eq_self_of_none {l : List Char}
    (h : ∀ c ∈ l, pyIsSpace c = false) : pyStrip l = l := by
  unfold pyStrip
  rw [dropWhile_eq_self_of_none h]
  exact dropTrailing_eq_self_of_none h

theorem map_eq_self_of_fixed {f : Char → Char} {l : List Char}
    (h : ∀ c ∈ l, f c = c) : l.map f = l := by
  induction l with
  | nil => rfl
  | cons a as ih => simp [h a (by simp), ih (fun c hc => h c (by simp [hc]))]

theorem sanitizeChar_clean (c : Char) : cleanChar (sanitizeChar c) := by
  unfold sanitizeChar cleanChar
  split_ifs with h1 h2 h3
  · exact ⟨by decide, by decide, by decide⟩
  · exact ⟨by decide, by decide, by decide⟩
  · exact ⟨by decide, by decide, by decide⟩
  · exact ⟨by simpa using h1, by omega, by simpa using h3⟩

theorem sanitizeChar_of_clean {c : Char} (h : cleanChar c) : sanitizeChar c = c := by
  obtain ⟨h1, h2, h3⟩ := h
  unfold sanitizeChar
  rw [if_neg (by rw [h1]; decide), if_neg (by omega), if_neg (by rw [h3]; decide)]

theorem sanitize_data (stem : String) :
    (sanitize_pbip_base stem).data =
      (if dropTrailing (fun c => rstripSet.contains c)
            ((pyStrip stem.data).map sanitizeChar) = []
        then ("pbip" : String)
        else ⟨dropTrailing (fun c => rstripSet.contains c)
            ((pyStrip stem.data).map sanitizeChar)⟩).data := rfl

theorem sanitize_chars_clean (stem : String) :
    ∀ c ∈ (sanitize_pbip_base stem).data, cleanChar c := by
  intro c hc
  rw [sanitize_data] at hc
  split_ifs at hc with he
  · have : c ∈ ("pbip" : String).data := hc
    fin_cases this <;> exact ⟨by decide, by decide, by decide⟩
  · have h2 := dropTrailing_mem hc
    obtain ⟨c0, _, rfl⟩ := List.mem_map.1 h2
    exact sanitizeChar_clean c0

theorem sanitize_getLast_not_stripped (stem : String) {c : Char}
    (h : (sanitize_pbip_base stem).data.getLast? = some c) :
    rstripSet.contains c = false := by
  rw [sanitize_data] at h
  split_ifs at h with he
  · have : (("pbip" : String).data).getLast? = some c := h
    simp [show ("pbip" : String).data = ['p', 'b', 'i', 'p'] from rfl] at this
    subst this; decide
  · exact dropTrailing_getLast_not h

theorem sanitize_ne_empty (stem : String) : (sanitize_pbip_base stem).data ≠ [] := by
  rw [sanitize_data]
  split_ifs with he
  · decide
  · exact he

theorem dropTrailing_eq_self_of_getLast {p : Char → Bool} {l : List Char} {c : Char}
    (h : l.getLast? = some c) (hc : p c = false) : dropTrailing p l = l := by
  unfold dropTrailing
  rw [← List.head?_reverse] at h
  cases hrev : l.reverse with
  | nil => rw [hrev] at h; simp at h
  | cons a rest =>
    rw [hrev] at h
    simp at h
    subst h
    rw [List.dropWhile_cons_of_neg (by simp [hc]), ← hrev, List.reverse_reverse]

/-- The sanitizer fixes any string whose characters are all clean and whose
last character is not one of the stripped trailing characters. -/
theorem sanitize_fixes {t : String}
    (hclean : ∀ c ∈ t.data, cleanChar c)
    (hne : t.data ≠ [])
    (hlast : ∀ c, t.data.getLast? = some c → rstripSet.contains c = false) :
    sanitize_pbip_base t = t := by
  obtain ⟨c, hc⟩ := Option.isSome_iff_exists.1
    (by rw [List.getLast?_isSome]; exact hne)
  have hdata : (sanitize_pbip_base t).data = t.data := by
    rw [sanitize_data,
      pyStrip_eq_self_of_none (fun d hd => (hclean d hd).2.2),
      map_eq_self_of_fixed (fun d hd => sanitizeChar_of_clean (hclean d hd)),
      @dropTrailing_eq_self_of_getLast (fun c => rstripSet.contains c) _ _
        hc (hlast c hc), if_neg hne]
  calc sanitize_pbip_base t = ⟨(sanitize_pbip_base t).data⟩ := rfl
    _ = ⟨t.data⟩ := by rw [hdata]
    _ = t := rfl

/-- **C3.** For every input string, the sanitizer output contains no
reserved path character, no control character (code point < 32), and no
whitespace character; it never ends with `'.'`, `'_'` or `'-'`; it is
never empty; and the fallback `"pbip"` is returned exactly when the
cleaned result is empty.  The sanitizer is a total function, so it
never fails. -/
theorem C3_sanitizer_output_safe (s : String) :
    (∀ c ∈ (sanitize_pbip_base s).data,
        WINDOWS_FORBIDDEN.contains c = false ∧ 32 ≤ c.toNat ∧ pyIsSpace c = false) ∧
    (∀ c, (sanitize_pbip_base s).data.getLast? = some c →
        c ≠ '.' ∧ c ≠ '_' ∧ c ≠ '-') ∧
    sanitize_pbip_base s ≠ "" ∧
    (dropTrailing (fun c => rstripSet.contains c)
        ((pyStrip s.data).map sanitizeChar) = [] → sanitize_pbip_base s = "pbip") := by
  refine ⟨sanitize_chars_clean s, ?_, ?_, ?_⟩
  · intro c hc
    have h := sanitize_getLast_not_stripped s hc
    refine ⟨?_, ?_, ?_⟩ <;> rintro rfl <;> exact absurd h (by decide)
  · intro h
    exact sanitize_ne_empty s (congrArg String.data h)
  · intro he
    unfold sanitize_pbip_base
    rw [if_pos he]

/-- Witness for C3 at the concrete input `"My Report: v2"`. -/
theorem C3_sanitizer_output_safe_witness :
    sanitize_pbip_base "My Report: v2" ≠ "" ∧
    ('2' ≠ '.' ∧ '2' ≠ '_' ∧ '2' ≠ '-') := by
  refine ⟨(C3_sanitizer_output_safe "My Report: v2").2.2.1, ?_⟩
  exact (C3_sanitizer_output_safe "My Report: v2").2.1 '2' (by decide)

/-- **C10.** The sanitizer is idempotent: applying it twice gives the same
result as applying it once, because its output contains only clean
characters and never ends with a stripped trailing character. -/
theorem C10_sanitizer_idempotent (s : String) :
    sanitize_pbip_base (sanitize_pbip_base s) = sanitize_pbip_base s :=
  sanitize_fixes (sanitize_chars_clean s) (sanitize_ne_empty s)
    (fun _ hc => sanitize_getLast_not_stripped s hc)

theorem digitChar_toNat {d : Nat} (h : d < 10) : (digitChar d).toNat = 48 + d := by
  interval_cases d <;> rfl

theorem revDigitsVal_natDigitsRevAux :
    ∀ n fuel, n < fuel → revDigitsVal (natDigitsRevAux fuel n) = n := by
  intro n
  induction n using Nat.strong_induction_on with
  | _ n ih =>
    intro fuel hf
    match fuel, hf with
    | f + 1, hf =>
      rw [natDigitsRevAux]
      split_ifs with h
      · simp [revDigitsVal, digitChar_toNat h]
      · rw [revDigitsVal, digitChar_toNat (Nat.mod_lt n (by omega)),
          ih (n / 10) (Nat.div_lt_self (by omega) (by decide)) f
            (by
              have := Nat.div_lt_self (show 0 < n by omega) (show 1 < 10 by decide)
              omega)]
        omega

theorem revDigitsVal_natDigitsRev (n : Nat) : revDigitsVal (natDigitsRev n) = n :=
  revDigitsVal_natDigitsRevAux n (n + 1) (by omega)

theorem natDigitsRev_inj : Function.Injective natDigitsRev := by
  intro a b h
  have := congrArg revDigitsVal h
  simpa [revDigitsVal_natDigitsRev] using this

theorem probeName_inj (stem suffix : String) :
    Function.Injective (probeName stem suffix) := by
  intro a b h
  have hd := congrArg String.data h
  simp only [probeName, String.data_append] at hd
  have h2 := List.append_cancel_right hd
  have h3 := List.append_cancel_left h2
  exact natDigitsRev_inj (List.reverse_injective h3)

theorem contains_iff (l : List String) (x : String) :
    l.contains x = true ↔ x ∈ l := by
  simp [List.contains]

/-- The probe loop returns the probe of index `i` whenever `i` is the
least free index at or after the start index `k` and lies within fuel. -/
theorem searchFree_eq {l : List String} {stem suffix : String} :
    ∀ f k i, k ≤ i → i < k + f → probeName stem suffix i ∉ l →
      (∀ j, k ≤ j → j < i → probeName stem suffix j ∈ l) →
      searchFree l stem suffix f k = probeName stem suffix i := by
  intro f
  induction f with
  | zero => intro k i h1 h2; omega
  | succ f ih =>
    intro k i h1 h2 hfree hblock
    rw [searchFree]
    by_cases hk : probeName stem suffix k ∈ l
    · rw [if_pos ((contains_iff l _).2 hk)]
      have hne : i ≠ k := fun he => hfree (he ▸ hk)
      exact ih (k + 1) i (by omega) (by omega) hfree
        (fun j hj1 hj2 => hblock j (by omega) hj2)
    · rw [if_neg (by rw [Bool.not_eq_true, ← Bool.not_eq_true'] at *; simpa [contains_iff] using hk)]
      have : i = k := by
        by_contra hne
        exact hk (hblock k (le_refl k) (by omega))
      rw [this]

/-- Pigeonhole: among the probes with indices `1 … |l| + 1` at least one
is not an existing entry of `l`. -/
theorem exists_free_probe (l : List String) (stem suffix : String) :
    ∃ i, 1 ≤ i ∧ i ≤ l.length + 1 ∧ probeName stem suffix i ∉ l := by
  by_contra hcon
  push_neg at hcon
  have hsub : (List.range' 1 (l.length + 1)).map (probeName stem suffix) ⊆ l := by
    intro x hx
    obtain ⟨i, hi, rfl⟩ := List.mem_map.1 hx
    rw [List.mem_range'_1] at hi
    exact hcon i hi.1 (by omega)
  have hnd : ((List.range' 1 (l.length + 1)).map (probeName stem suffix)).Nodup :=
    List.Nodup.map (probeName_inj stem suffix) (List.nodup_range' 1 (l.length + 1))
  have hlen := (List.subperm_of_subset hnd hsub).length_le
  simp at hlen

/-- Full specification of `next_available_path`: the result never
collides with an existing entry; a free target is returned unchanged; a
colliding target is resolved to `stem-i suffix` for the least free
counter `i ≥ 1`. -/
theorem next_available_path_spec (l : List String) (name : String) :
    next_available_path l name ∉ l ∧
    (name ∉ l → next_available_path l name = name) ∧
    (name ∈ l → ∃ i, 1 ≤ i ∧
      next_available_path l name = probeName (pyStem name) (pySuffix name) i ∧
      probeName (pyStem name) (pySuffix name) i ∉ l ∧
      (∀ j, 1 ≤ j → j < i → probeName (pyStem name) (pySuffix name) j ∈ l)) := by
  unfold next_available_path
  by_cases hn : name ∈ l
  · rw [if_pos ((contains_iff l _).2 hn)]
    have hex : ∃ i, probeName (pyStem name) (pySuffix name) i ∉ l ∧ 1 ≤ i ∧
        i ≤ l.length + 1 := by
      obtain ⟨i, h1, h2, h3⟩ := exists_free_probe l (pyStem name) (pySuffix name)
      exact ⟨i, h3, h1, h2⟩
    classical
    set i0 := Nat.find hex with hi0
    obtain ⟨hfree, hge, hle⟩ := Nat.find_spec hex
    have hblock : ∀ j, 1 ≤ j → j < i0 → probeName (pyStem name) (pySuffix name) j ∈ l := by
      intro j hj1 hj2
      by_contra hjf
      obtain ⟨i1, h1, h2, h3⟩ := exists_free_probe l (pyStem name) (pySuffix name)
      have := Nat.find_min hex hj2
      push_neg at this
      have hle2 := this hjf hj1
      omega
    have heq := @searchFree_eq l (pyStem name) (pySuffix name)
      (l.length + 1) 1 i0 hge (by omega) hfree hblock
    rw [heq]
    exact ⟨hfree, fun hc => absurd hn hc, fun _ => ⟨i0, hge, rfl, hfree, hblock⟩⟩
  · rw [if_neg (by simpa [contains_iff] using hn)]
    exact ⟨hn, fun _ => rfl, fun hc => absurd hc hn⟩

/-- Determinism of the resolution: any index that is free and whose
predecessors are all blocked is the one returned (for a colliding
target). -/
theorem next_available_path_det (l : List String) (name : String) (i : Nat)
    (hname : name ∈ l) (hi : 1 ≤ i)
    (hfree : probeName (pyStem name) (pySuffix name) i ∉ l)
    (hblock : ∀ j, 1 ≤ j → j < i → probeName (pyStem name) (pySuffix name) j ∈ l) :
    next_available_path l name = probeName (pyStem name) (pySuffix name) i := by
  obtain ⟨-, -, h3⟩ := next_available_path_spec l name
  obtain ⟨i0, hge, heq, hfree0, hblock0⟩ := h3 hname
  rw [heq]
  congr 1
  by_contra hne
  rcases Nat.lt_or_ge i0 i with h | h
  · exact hfree0 (hblock i0 hge h)
  · have : i < i0 := by omega
    exact hfree (hblock0 i hi this)

/-- Growing the directory with entries that do not clash with the
resolved name leaves the resolution unchanged. -/
theorem next_available_path_mono {l l' : List String} {name : String}
    (hsub : ∀ x ∈ l, x ∈ l')
    (hd : next_available_path l name ∉ l') :
    next_available_path l' name = next_available_path l name := by
  obtain ⟨hfree, hkeep, hres⟩ := next_available_path_spec l name
  by_cases hn : name ∈ l
  · obtain ⟨i, hge, heq, hifree, hblock⟩ := hres hn
    rw [heq]
    rw [heq] at hd
    exact next_available_path_det l' name i (hsub name hn) hge hd
      (fun j h1 h2 => hsub _ (hblock j h1 h2))
  · rw [hkeep hn] at hd ⊢
    obtain ⟨-, hkeep', -⟩ := next_available_path_spec l' name
    exact hkeep' hd

/-! ## Path ordering

Python compares `pathlib.Path` objects by their tuple of path components
(each component compared as a string by Unicode code points); `sorted(...)`
orders paths accordingly.  `clLt` is code-point-lexicographic order on
character lists (Python string `<`), `partsLtB` the induced lexicographic
order on component lists (Python tuple `<`). -/

theorem char_toNat_inj {a b : Char} (h : a.toNat = b.toNat) : a = b := by
  apply Char.ext
  apply UInt32.ext
  simpa [Char.toNat, UInt32.toNat] using h

theorem clLt_irrefl : ∀ a, clLt a a = false := by
  intro a
  induction a with
  | nil => rfl
  | cons c cs ih => rw [clLt]; simp [ih]

theorem clLt_trichotomy : ∀ a b, clLt a b = true ∨ clLt b a = true ∨ a = b := by
  intro a
  induction a with
  | nil => intro b; cases b with
    | nil => right; right; rfl
    | cons y ys => left; rfl
  | cons x xs ih =>
    intro b
    cases b with
    | nil => right; left; rfl
    | cons y ys =>
      rw [clLt, clLt]
      rcases Nat.lt_trichotomy x.toNat y.toNat with h | h | h
      · simp [h]
      · rcases ih ys with h2 | h2 | h2
        · simp [h, h2]
        · simp [h, h2]
        · right; right; rw [char_toNat_inj h, h2]
      · right; left; simp [h, Nat.lt_asymm h]

theorem clLt_trans : ∀ a b c, clLt a b = true → clLt b c = true → clLt a c = true := by
  intro a
  induction a with
  | nil =>
    intro b c hab hbc
    cases b with
    | nil => exact absurd hab (by simp [clLt])
    | cons y ys =>
      cases c with
      | nil => exact absurd hbc (by simp [clLt])
      | cons z zs => rfl
  | cons x xs ih =>
    intro b c hab hbc
    cases b with
    | nil => exact absurd hab (by simp [clLt])
    | cons y ys =>
      cases c with
      | nil => exact absurd hbc (by simp [clLt])
      | cons z zs =>
        rw [clLt] at hab hbc ⊢
        rcases Nat.lt_trichotomy x.toNat y.toNat with h1 | h1 | h1 <;>
          rcases Nat.lt_trichotomy y.toNat z.toNat with h2 | h2 | h2
        · rw [if_pos (by omega)]
        · rw [if_pos (by omega)]
        · rw [if_neg (by omega), if_pos (by omega)] at hbc
          exact absurd hbc (by simp)
        · rw [if_pos (by omega)]
        · rw [if_neg (by omega), if_neg (by omega)] at hab hbc ⊢
          exact ih ys zs hab hbc
        · rw [if_neg (by omega), if_pos (by omega)] at hbc
          exact absurd hbc (by simp)
        · rw [if_neg (by omega), if_pos (by omega)] at hab
          exact absurd hab (by simp)
        · rw [if_neg (by omega), if_pos (by omega)] at hab
          exact absurd hab (by simp)
        · rw [if_neg (by omega), if_pos (by omega)] at hab
          exact absurd hab (by simp)

theorem strLtB_irrefl (a : String) : strLtB a a = false := clLt_irrefl a.data

theorem strLtB_trichotomy (a b : String) :
    strLtB a b = true ∨ strLtB b a = true ∨ a = b := by
  rcases clLt_trichotomy a.data b.data with h | h | h
  · exact Or.inl h
  · exact Or.inr (Or.inl h)
  · refine Or.inr (Or.inr ?_)
    calc a = ⟨a.data⟩ := rfl
      _ = ⟨b.data⟩ := by rw [h]
      _ = b := rfl

theorem strLtB_trans {a b c : String} (h1 : strLtB a b = true)
    (h2 : strLtB b c = true) : strLtB a c = true :=
  clLt_trans a.data b.data c.data h1 h2

theorem partsLtB_irrefl : ∀ a, partsLtB a a = false := by
  intro a
  induction a with
  | nil => rfl
  | cons x xs ih => rw [partsLtB]; simp [strLtB_irrefl, ih]

theorem partsLtB_trichotomy : ∀ a b, partsLtB a b = true ∨ partsLtB b a = true ∨ a = b := by
  intro a
  induction a with
  | nil => intro b; cases b with
    | nil => right; right; rfl
    | cons y ys => left; rfl
  | cons x xs ih =>
    intro b
    cases b with
    | nil => right; left; rfl
    | cons y ys =>
      rcases strLtB_trichotomy x y with h | h | h
      · left; rw [partsLtB, if_pos h]
      · right; left; rw [partsLtB, if_pos h]
      · subst h
        rcases ih ys with h2 | h2 | h2
        · left
          rw [partsLtB, if_neg (by simp [strLtB_irrefl]),
            if_neg (by simp [strLtB_irrefl])]
          exact h2
        · right; left
          rw [partsLtB, if_neg (by simp [strLtB_irrefl]),
            if_neg (by simp [strLtB_irrefl])]
          exact h2
        · right; right; rw [h2]

theorem partsLtB_trans : ∀ a b c, partsLtB a b = true → partsLtB b c = true →
    partsLtB a c = true := by
  intro a
  induction a with
  | nil =>
    intro b c hab hbc
    cases b with
    | nil => exact absurd hab (by simp [partsLtB])
    | cons y ys =>
      cases c with
      | nil => exact absurd hbc (by simp [partsLtB])
      | cons z zs => rfl
  | cons x xs ih =>
    intro b c hab hbc
    cases b with
    | nil => exact absurd hab (by simp [partsLtB])
    | cons y ys =>
      cases c with
      | nil => exact absurd hbc (by simp [partsLtB])
      | cons z zs =>
        rw [partsLtB] at hab hbc ⊢
        by_cases h1 : strLtB x y = true <;> by_cases h2 : strLtB y z = true
        · simp [strLtB_trans h1 h2]
        · rcases strLtB_trichotomy y z with h3 | h3 | h3
          · exact absurd h3 h2
          · simp [h2, h3] at hbc
          · subst h3; simp [h1]
        · rcases strLtB_trichotomy x y with h3 | h3 | h3
          · exact absurd h3 h1
          · simp [h1, h3] at hab
          · subst h3; simp [h2]
        · rcases strLtB_trichotomy x y with h3 | h3 | h3
          · exact absurd h3 h1
          · simp [h1, h3] at hab
          · subst h3
            rcases strLtB_trichotomy x z with h4 | h4 | h4
            · exact absurd h4 h2
            · simp [h2, h4] at hbc
            · subst h4
              simp [h1] at hab hbc ⊢
              exact ih ys zs hab hbc

theorem pyMinBy_none {α : Type} (lt : α → α → Bool) {l : List α}
    (h : pyMinBy lt l = none) : l = [] := by
  cases l with
  | nil => rfl
  | cons x xs => simp [pyMinBy] at h

theorem minFold_cons {α : Type} (lt : α → α → Bool) (x z : α) (zs : List α) :
    minFold lt x (z :: zs) = minFold lt (if lt z x then z else x) zs := rfl

theorem minFold_spec {α κ : Type} {key : α → κ} {ltk : κ → κ → Bool}
    (htrans : ∀ a b c, ltk a b = true → ltk b c = true → ltk a c = true)
    (htrich : ∀ a b, ltk a b = true ∨ ltk b a = true ∨ a = b)
    (hirr : ∀ a, ltk a a = false) :
    ∀ (xs : List α) (x : α),
      minFold (fun a b => ltk (key a) (key b)) x xs ∈ x :: xs ∧
      ∀ y ∈ x :: xs,
        ltk (key y) (key (minFold (fun a b => ltk (key a) (key b)) x xs)) = false := by
  intro xs
  induction xs with
  | nil =>
    intro x
    refine ⟨by simp [minFold], ?_⟩
    intro y hy
    simp at hy
    simp only [minFold, List.foldl_nil]
    rw [hy]
    exact hirr (key x)
  | cons z zs ih =>
    intro x
    rw [minFold_cons]
    by_cases hz : ltk (key z) (key x) = true
    · rw [if_pos hz]
      obtain ⟨hmem, hmin⟩ := ih z
      refine ⟨?_, ?_⟩
      · rcases List.mem_cons.1 hmem with h | h
        · rw [h]; simp
        · simp [h]
      · intro y hy
        have hzr := hmin z (by simp)
        rcases List.mem_cons.1 hy with rfl | hy'
        · -- y = x
          by_contra hlt
          rw [Bool.not_eq_false] at hlt
          have := htrans (key z) (key y) _ hz hlt
          rw [this] at hzr
          exact absurd hzr (by simp)
        · exact hmin y hy'
    · rw [if_neg hz]
      obtain ⟨hmem, hmin⟩ := ih x
      refine ⟨?_, ?_⟩
      · rcases List.mem_cons.1 hmem with h | h
        · rw [h]; simp
        · simp [h]
      · intro y hy
        have hxr := hmin x (by simp)
        rcases List.mem_cons.1 hy with rfl | hy'
        · exact hxr
        · rcases List.mem_cons.1 hy' with rfl | hy''
          · -- y = z
            by_contra hlt
            rw [Bool.not_eq_false] at hlt
            rcases htrich (key x)
                (key (minFold (fun a b => ltk (key a) (key b)) x zs)) with h | h | h
            · rw [h] at hxr; exact absurd hxr (by simp)
            · have := htrans (key y) _ _ hlt h
              exact hz this
            · rw [← h] at hlt
              exact hz hlt
          · exact hmin y (by simp [hy''])

theorem pyMinBy_spec {α κ : Type} {key : α → κ} {ltk : κ → κ → Bool}
    (htrans : ∀ a b c, ltk a b = true → ltk b c = true → ltk a c = true)
    (htrich : ∀ a b, ltk a b = true ∨ ltk b a = true ∨ a = b)
    (hirr : ∀ a, ltk a a = false)
    {l : List α} {m : α} (h : pyMinBy (fun a b => ltk (key a) (key b)) l = some m) :
    m ∈ l ∧ ∀ y ∈ l, ltk (key y) (key m) = false := by
  cases l with
  | nil => simp [pyMinBy] at h
  | cons x xs =>
    simp only [pyMinBy, Option.some.injEq] at h
    subst h
    exact minFold_spec htrans htrich hirr xs x

/-! ### Basic facts about glob hits -/

theorem mem_rglobHits {dirs : List (List String × List FSNode)} {ext : String}
    {h : GHit} (hm : h ∈ rglobHits dirs ext) :
    ∃ entry ∈ dirs, ∃ c ∈ entry.2, matchesExt ext c.nameOf = true ∧
      h = ⟨entry.1 ++ [c.nameOf], c.isDirN, entry.2⟩ := by
  obtain ⟨entry, he, hc⟩ := List.mem_flatMap.1 hm
  obtain ⟨c, hcm, hcf⟩ := List.mem_filterMap.1 hc
  refine ⟨entry, he, c, hcm, ?_, ?_⟩
  · by_cases hme : matchesExt ext c.nameOf = true
    · exact hme
    · rw [if_neg hme] at hcf; cases hcf
  · by_cases hme : matchesExt ext c.nameOf = true
    · rw [if_pos hme] at hcf; cases hcf; rfl
    · rw [if_neg hme] at hcf; cases hcf

theorem rglobHits_rel_ne_nil {dirs : List (List String × List FSNode)} {ext : String}
    {h : GHit} (hm : h ∈ rglobHits dirs ext) : h.rel ≠ [] := by
  obtain ⟨entry, -, c, -, -, rfl⟩ := mem_rglobHits hm
  simp

theorem rglobHits_last_matches {dirs : List (List String × List FSNode)} {ext : String}
    {h : GHit} (hm : h ∈ rglobHits dirs ext) :
    matchesExt ext (h.rel.getLastD "") = true := by
  obtain ⟨entry, -, c, -, hme, rfl⟩ := mem_rglobHits hm
  simpa using hme

/-- Every hit selected by `find_first_pbip` is an actual `*.pbip` glob hit
from the project tree; in particular its path is nonempty and its last
component ends in `.pbip`. -/
theorem find_first_pbip_mem {cs : List FSNode} {h : GHit}
    (hf : find_first_pbip cs = some h) :
    (h ∈ rglobHits [([], cs)] ".pbip" ∨ h ∈ rglobHits (dirsFromRoot cs) ".pbip") := by
  unfold find_first_pbip at hf
  cases h1 : pyMinBy hitLt (rglobHits [([], cs)] ".pbip") with
  | some h2 =>
    rw [h1] at hf
    cases hf
    exact Or.inl (@pyMinBy_spec GHit (List String) GHit.rel partsLtB
      partsLtB_trans partsLtB_trichotomy partsLtB_irrefl _ _ h1).1
  | none =>
    rw [h1] at hf
    cases h2 : pyMinBy hitLt ((rglobHits (dirsFromRoot cs) ".pbip").filter hasStdSiblings) with
    | some h3 =>
      rw [h2] at hf
      cases hf
      refine Or.inr (List.mem_of_mem_filter (@pyMinBy_spec GHit (List String) GHit.rel partsLtB
        partsLtB_trans partsLtB_trichotomy partsLtB_irrefl _ _ h2).1)
    | none =>
      rw [h2] at hf
      exact Or.inr (@pyMinBy_spec GHit (List String) GHit.rel partsLtB
        partsLtB_trans partsLtB_trichotomy partsLtB_irrefl _ _ hf).1

theorem find_first_pbip_rel_ne_nil {cs : List FSNode} {h : GHit}
    (hf : find_first_pbip cs = some h) : h.rel ≠ [] := by
  rcases find_first_pbip_mem hf with hm | hm <;> exact rglobHits_rel_ne_nil hm

/-! ## Lemmas about `relative_to` and the orchestrator -/

theorem isPrefixOf_append (base xs : List String) :
    base.isPrefixOf (base ++ xs) = true := by
  induction base with
  | nil => simp [List.isPrefixOf]
  | cons a as ih => simp [List.isPrefixOf, ih]

theorem relativeTo_append (base xs : List String) :
    relativeTo base (base ++ xs) = some xs := by
  unfold relativeTo
  rw [if_pos (isPrefixOf_append base xs)]
  rw [List.drop_left base xs]

/-- **C9.** The fallback branch for a descriptor lying outside `root` is
unreachable: any descriptor hit returned by the locator has a nonempty
path under the project directory, so the descriptor parent's path is
`root ++ [project] ++ …` and `relative_to(root)` succeeds; consequently
the manifest row recorded by the project step is the main-branch value
(the descriptor parent's root-relative path with the descriptor name),
never the fallback. -/
theorem C9_fallback_unreachable (cs : List FSNode) (h : GHit)
    (hf : find_first_pbip cs = some h) (root : List String) (pn : String)
    (dry verbose : Bool) (fs : DestFS) :
    h.rel ≠ [] ∧
    relativeTo root (root ++ pn :: h.rel).dropLast = some (pn :: h.rel.dropLast) ∧
    (processProject root dry verbose fs pn cs).2.2.2 =
      [(joinParts (pn :: h.rel.dropLast), h.rel.getLastD "")] := by
  have hne := find_first_pbip_rel_ne_nil hf
  have hdrop : (root ++ pn :: h.rel).dropLast = root ++ (pn :: h.rel.dropLast) := by
    rw [List.dropLast_append_of_ne_nil root (by simp),
      List.dropLast_cons_of_ne_nil hne]
  have hrel : relativeTo root ((root ++ pn :: h.rel).dropLast) =
      some (pn :: h.rel.dropLast) := by
    rw [hdrop]
    exact relativeTo_append root (pn :: h.rel.dropLast)
  refine ⟨hne, hrel, ?_⟩
  unfold processProject
  rw [hf]
  simp only [hrel]

/-- Witness for C9 on a concrete project tree with a nested descriptor. -/
theorem C9_fallback_unreachable_witness :
    relativeTo ["r"] (["r"] ++ "P" :: (["sub", "a.pbip"] : List String)).dropLast =
      some ["P", "sub"] ∧
    (processProject ["r"] false true ⟨[], [], [], [], [], none⟩ "P"
        [.dir "sub" [.file "a.pbip", .dir "a.Report" [], .dir "a.SemanticModel" []]]).2.2.2 =
      [("P/sub", "a.pbip")] := by
  have hf : find_first_pbip
      [.dir "sub" [.file "a.pbip", .dir "a.Report" [], .dir "a.SemanticModel" []]] =
      some ⟨["sub", "a.pbip"], false,
        [.file "a.pbip", .dir "a.Report" [], .dir "a.SemanticModel" []]⟩ := by rfl
  have := C9_fallback_unreachable _ _ hf ["r"] "P" false true ⟨[], [], [], [], [], none⟩
  exact ⟨this.2.1, by rw [this.2.2]; rfl⟩

/-! ## C1: what a dry run touches -/

theorem copy_many_dry_leaf (verbose : Bool) (base : String) (destDir : List String) :
    ∀ (cands : List Cand) (leaf : List String) (dirs : List (List String)),
      (copy_many true verbose base destDir cands leaf dirs).leaf = leaf := by
  intro cands
  induction cands with
  | nil => intro leaf dirs; rfl
  | cons c rest ih =>
    intro leaf dirs
    rw [copy_many]
    split_ifs <;> first
    | exact ih leaf dirs
    | exact absurd rfl (by assumption)

theorem copy_many_dry_dirs (verbose : Bool) (base : String) (destDir : List String) :
    ∀ (cands : List Cand) (leaf : List String) (dirs : List (List String)),
      (copy_many true verbose base destDir cands leaf dirs).dirs = dirs := by
  intro cands
  induction cands with
  | nil => intro leaf dirs; rfl
  | cons c rest ih =>
    intro leaf dirs
    rw [copy_many]
    split_ifs <;> first
    | exact ih leaf dirs
    | exact absurd rfl (by assumption)

theorem copy_many_dry_perf (verbose : Bool) (base : String) (destDir : List String) :
    ∀ (cands : List Cand) (leaf : List String) (dirs : List (List String)),
      (copy_many true verbose base destDir cands leaf dirs).performed = [] := by
  intro cands
  induction cands with
  | nil => intro leaf dirs; rfl
  | cons c rest ih =>
    intro leaf dirs
    rw [copy_many]
    split_ifs <;> first
    | exact ih leaf dirs
    | exact absurd rfl (by assumption)

theorem processProject_dry (root : List String) (verbose : Bool) (fs : DestFS)
    (pn : String) (cs : List FSNode) :
    (processProject root true verbose fs pn cs).1 = fs ∧
    (processProject root true verbose fs pn cs).2.2.1 = [] := by
  cases hf : find_first_pbip cs with
  | none =>
    unfold processProject
    rw [hf]
    exact ⟨rfl, rfl⟩
  | some h =>
    unfold processProject
    rw [hf]
    simp only [copy_many_dry_leaf, copy_many_dry_dirs, copy_many_dry_perf,
      List.map_nil, List.append_nil, List.nil_append]
    refine ⟨?_, ?_⟩ <;> first | rfl | trivial

theorem collectProjects_dry (root : List String) (verbose : Bool) :
    ∀ (ps : List FSNode) (fs : DestFS),
      (collectProjects root true verbose ps fs).1 = fs ∧
      (collectProjects root true verbose ps fs).2.2.1 = [] := by
  intro ps
  induction ps with
  | nil => intro fs; exact ⟨rfl, rfl⟩
  | cons p rest ih =>
    intro fs
    rw [collectProjects]
    obtain ⟨h1, h2⟩ := processProject_dry root verbose fs p.nameOf p.childrenOf
    simp only [h1, h2]
    obtain ⟨h3, h4⟩ := ih fs
    simp only [h3, h4, List.nil_append]
    refine ⟨?_, ?_⟩ <;> first | rfl | trivial

/-- C1, amended: a dry run copies no files, changes no leaf-directory
contents, and writes no manifest — but it still creates the four leaf
category directories (with their ancestors), because the directory
creation loop runs before `dry_run` is consulted. -/
theorem C1_dry_run_amended (root : List String) (cs : List FSNode) (verbose : Bool)
    (fs0 : DestFS) :
    (collect root cs true verbose fs0).performed = [] ∧
    (collect root cs true verbose fs0).fs.reportJson = fs0.reportJson ∧
    (collect root cs true verbose fs0).fs.reportTmdl = fs0.reportTmdl ∧
    (collect root cs true verbose fs0).fs.semJson = fs0.semJson ∧
    (collect root cs true verbose fs0).fs.semTmdl = fs0.semTmdl ∧
    (collect root cs true verbose fs0).fs.manifestFile = fs0.manifestFile ∧
    (collect root cs true verbose fs0).fs.dirs =
      [LeafT.reportJson, LeafT.reportTmdl, LeafT.semJson, LeafT.semTmdl].foldl
        (fun ds L => ensure_dir ds (leafDirPath root L)) fs0.dirs := by
  obtain ⟨h1, h2⟩ := collectProjects_dry root verbose (cs.filter FSNode.isDirN)
    { fs0 with
        dirs := [LeafT.reportJson, LeafT.reportTmdl, LeafT.semJson, LeafT.semTmdl].foldl
          (fun ds L => ensure_dir ds (leafDirPath root L)) fs0.dirs }
  have hfs : (collect root cs true verbose fs0).fs =
      { fs0 with
          dirs := [LeafT.reportJson, LeafT.reportTmdl, LeafT.semJson, LeafT.semTmdl].foldl
            (fun ds L => ensure_dir ds (leafDirPath root L)) fs0.dirs } := by
    dsimp only [collect]
    rw [if_pos rfl]
    exact h1
  have hperf : (collect root cs true verbose fs0).performed = [] := by
    dsimp only [collect]
    rw [if_pos rfl]
    exact h2
  rw [hfs, hperf]
  exact ⟨rfl, rfl, rfl, rfl, rfl, rfl, rfl⟩

/-- C1, counterexample to the claim as stated: a dry run on an empty root
with no pre-existing inventory directories changes the filesystem state —
the four leaf category directories (and ancestors) are created. -/
theorem C1_dry_run_counterexample :
    (collect ["r"] [] true true ⟨[], [], [], [], [], none⟩).fs ≠
      ⟨[], [], [], [], [], none⟩ := by decide

/-! ## C8: recoverable skips -/

/-- **C8.** A candidate whose source is missing or not a regular file is
skipped with a diagnostic and no error: the copier's state (leaf
contents, directories, performed copies) is exactly that of processing
the remaining candidates, with only a skip diagnostic prepended.
Likewise a project with no descriptor is skipped with a diagnostic and
the remaining projects are processed unchanged. -/
theorem C8_skip_semantics
    (dry verbose : Bool) (base : String) (destDir : List String)
    (c : Cand) (rest : List Cand) (leaf : List String) (dirs : List (List String))
    (hc : c.ex = false ∨ c.isf = false)
    (root : List String) (p : FSNode) (prest : List FSNode) (fs : DestFS)
    (hp : find_first_pbip p.childrenOf = none) :
    ((copy_many dry verbose base destDir (c :: rest) leaf dirs).leaf =
        (copy_many dry verbose base destDir rest leaf dirs).leaf ∧
      (copy_many dry verbose base destDir (c :: rest) leaf dirs).dirs =
        (copy_many dry verbose base destDir rest leaf dirs).dirs ∧
      (copy_many dry verbose base destDir (c :: rest) leaf dirs).performed =
        (copy_many dry verbose base destDir rest leaf dirs).performed ∧
      (copy_many dry verbose base destDir (c :: rest) leaf dirs).diags =
        (if verbose then
          [if c.ex = false then Diag.skipMissing c.path else Diag.skipNotFile c.path]
        else []) ++ (copy_many dry verbose base destDir rest leaf dirs).diags) ∧
    collectProjects root dry verbose (p :: prest) fs =
      ((collectProjects root dry verbose prest fs).1,
        (if verbose then [Diag.skipNoPbip p.nameOf] else []) ++
          (collectProjects root dry verbose prest fs).2.1,
        (collectProjects root dry verbose prest fs).2.2.1,
        (collectProjects root dry verbose prest fs).2.2.2) := by
  constructor
  · by_cases hex : c.ex = false
    · rw [copy_many, if_pos hex]
      refine ⟨rfl, rfl, rfl, ?_⟩
      simp [hex]
    · have hisf : c.isf = false := hc.resolve_left hex
      rw [copy_many, if_neg hex, if_pos hisf]
      refine ⟨rfl, rfl, rfl, ?_⟩
      simp [hex]
  · rw [collectProjects]
    unfold processProject
    rw [hp]
    simp only [List.nil_append]

/-- Witness for C8 at concrete inputs: a missing source file and a
descriptorless project. -/
theorem C8_skip_semantics_witness :
    (copy_many false true "b" ["inv"] [⟨["s", "x.json"], false, true⟩] [] []).diags =
      [Diag.skipMissing ["s", "x.json"]] ∧
    collectProjects ["r"] false true [.dir "P" []] ⟨[], [], [], [], [], none⟩ =
      (⟨[], [], [], [], [], none⟩, [Diag.skipNoPbip "P"], [], []) := by
  have h := C8_skip_semantics false true "b" ["inv"] ⟨["s", "x.json"], false, true⟩ [] [] []
    (Or.inl rfl) ["r"] (.dir "P" []) [] ⟨[], [], [], [], [], none⟩ rfl
  refine ⟨?_, ?_⟩
  · rw [h.1.2.2.2]; rfl
  · rw [h.2]; rfl

/-! ## C7: the manifest -/

theorem processProject_rows (root : List String) (dry verbose : Bool) (fs : DestFS)
    (pn : String) (cs : List FSNode) :
    (processProject root dry verbose fs pn cs).2.2.2 =
      ((find_first_pbip cs).map (fun h =>
        (joinParts (pn :: h.rel.dropLast), h.rel.getLastD ""))).toList := by
  cases hf : find_first_pbip cs with
  | none => unfold processProject; rw [hf]; rfl
  | some h =>
    unfold processProject
    rw [hf]
    have hne := find_first_pbip_rel_ne_nil hf
    have hrel : relativeTo root ((root ++ pn :: h.rel).dropLast) =
        some (pn :: h.rel.dropLast) := by
      rw [List.dropLast_append_of_ne_nil root (by simp),
        List.dropLast_cons_of_ne_nil hne]
      exact relativeTo_append root (pn :: h.rel.dropLast)
    simp only [hrel]
    rfl

theorem processProject_manifest (root : List String) (dry verbose : Bool) (fs : DestFS)
    (pn : String) (cs : List FSNode) :
    (processProject root dry verbose fs pn cs).1.manifestFile = fs.manifestFile := by
  cases hf : find_first_pbip cs with
  | none => unfold processProject; rw [hf]
  | some h => unfold processProject; rw [hf]

theorem collectProjects_manifest (root : List String) (dry verbose : Bool) :
    ∀ (ps : List FSNode) (fs : DestFS),
      (collectProjects root dry verbose ps fs).1.manifestFile = fs.manifestFile := by
  intro ps
  induction ps with
  | nil => intro fs; rfl
  | cons p rest ih =>
    intro fs
    rw [collectProjects]
    rw [ih]
    exact processProject_manifest root dry verbose fs p.nameOf p.childrenOf

theorem collectProjects_rows (root : List String) (dry verbose : Bool) :
    ∀ (ps : List FSNode) (fs : DestFS),
      (collectProjects root dry verbose ps fs).2.2.2 =
        ps.filterMap (fun p => (find_first_pbip p.childrenOf).map (fun h =>
          (joinParts (p.nameOf :: h.rel.dropLast), h.rel.getLastD ""))) := by
  intro ps
  induction ps with
  | nil => intro fs; rfl
  | cons p rest ih =>
    intro fs
    rw [collectProjects]
    simp only [ih, processProject_rows, List.filterMap_cons]
    cases find_first_pbip p.childrenOf with
    | none => rfl
    | some h => rfl

/-- **C7.** The manifest is written once, at the end of the run, to the
inventory base directory: its content is the header row
`project_folder,pbip_file` followed by one row per project with a
located descriptor, in project iteration order, pairing the descriptor
parent's root-relative path with the descriptor file name; when `dry`
is set the write is skipped and the manifest file is untouched;
descriptorless projects contribute no row. -/
theorem C7_manifest (root : List String) (cs : List FSNode) (dry verbose : Bool)
    (fs0 : DestFS) :
    (collect root cs dry verbose fs0).fs.manifestFile =
      if dry then fs0.manifestFile
      else some (["project_folder", "pbip_file"] ::
        (cs.filter FSNode.isDirN).filterMap (fun p =>
          (find_first_pbip p.childrenOf).map (fun h =>
            [joinParts (p.nameOf :: h.rel.dropLast), h.rel.getLastD ""]))) := by
  cases dry with
  | true =>
    show (collect root cs true verbose fs0).fs.manifestFile = fs0.manifestFile
    dsimp only [collect]
    rw [if_pos rfl]
    exact collectProjects_manifest root true verbose (cs.filter FSNode.isDirN) _
  | false =>
    show _ = some _
    dsimp only [collect]
    rw [if_neg (fun hc => Bool.false_ne_true hc)]
    simp only [collectProjects_rows, List.map_filterMap]
    have hfun : (fun x : FSNode =>
        Option.map (fun row : String × String => [row.1, row.2])
          (Option.map
            (fun h : GHit => (joinParts (x.nameOf :: h.rel.dropLast), h.rel.getLastD ""))
            (find_first_pbip x.childrenOf))) =
        (fun p : FSNode =>
          Option.map (fun h : GHit => [joinParts (p.nameOf :: h.rel.dropLast), h.rel.getLastD ""])
            (find_first_pbip p.childrenOf)) := by
      funext p
      rw [Option.map_map]
      rfl
    rw [hfun]

/-! ## C5: the Artifact Gatherer -/

theorem count_flatMap_rel (basePath : List String) (ext : String) (p : List String) :
    ∀ roots : List FSNode,
      ((roots.flatMap (fun r => rootRglob basePath r ext)).map GHit.rel).count p =
        (roots.map (fun r => ((rootRglob basePath r ext).map GHit.rel).count p)).sum := by
  intro roots
  induction roots with
  | nil => rfl
  | cons r rest ih =>
    rw [List.flatMap_cons, List.map_append, List.count_append, List.map_cons,
      List.sum_cons, ih]

/-- **C5.** For each category, when the exact-named folder
`<stem>.Report` / `<stem>.SemanticModel` exists as a directory among the
descriptor parent's children the gatherer uses exactly that one folder
as the category root set; otherwise it uses every immediate child
directory whose name ends in the category suffix (possibly zero, one or
many).  Every root is enumerated recursively for `*.json` / `*.tmdl`
entries (case-sensitive suffix match), and the outputs concatenate the
per-root enumerations without deduplication (per-path multiplicities
add up). -/
theorem C5_gatherer (pbipDirPath : List String) (sibs : List FSNode) (stem : String) :
    (∀ d, sibs.find? (fun c => c.isDirN && c.nameOf == stem ++ ".Report") = some d →
      categoryRoots sibs (stem ++ ".Report") ".Report" = [d]) ∧
    (sibs.find? (fun c => c.isDirN && c.nameOf == stem ++ ".Report") = none →
      categoryRoots sibs (stem ++ ".Report") ".Report" =
        sibs.filter (fun c => matchesExt ".Report" c.nameOf && c.isDirN)) ∧
    (∀ d, sibs.find? (fun c => c.isDirN && c.nameOf == stem ++ ".SemanticModel") = some d →
      categoryRoots sibs (stem ++ ".SemanticModel") ".SemanticModel" = [d]) ∧
    (sibs.find? (fun c => c.isDirN && c.nameOf == stem ++ ".SemanticModel") = none →
      categoryRoots sibs (stem ++ ".SemanticModel") ".SemanticModel" =
        sibs.filter (fun c => matchesExt ".SemanticModel" c.nameOf && c.isDirN)) ∧
    (∀ p : List String,
      (((gather_candidates pbipDirPath sibs stem).report_json.map GHit.rel).count p) =
        ((categoryRoots sibs (stem ++ ".Report") ".Report").map
          (fun r => ((rootRglob pbipDirPath r ".json").map GHit.rel).count p)).sum) ∧
    (∀ p : List String,
      (((gather_candidates pbipDirPath sibs stem).report_tmdl.map GHit.rel).count p) =
        ((categoryRoots sibs (stem ++ ".Report") ".Report").map
          (fun r => ((rootRglob pbipDirPath r ".tmdl").map GHit.rel).count p)).sum) ∧
    (∀ p : List String,
      (((gather_candidates pbipDirPath sibs stem).sem_json.map GHit.rel).count p) =
        ((categoryRoots sibs (stem ++ ".SemanticModel") ".SemanticModel").map
          (fun r => ((rootRglob pbipDirPath r ".json").map GHit.rel).count p)).sum) ∧
    (∀ p : List String,
      (((gather_candidates pbipDirPath sibs stem).sem_tmdl.map GHit.rel).count p) =
        ((categoryRoots sibs (stem ++ ".SemanticModel") ".SemanticModel").map
          (fun r => ((rootRglob pbipDirPath r ".tmdl").map GHit.rel).count p)).sum) ∧
    (∀ h ∈ (gather_candidates pbipDirPath sibs stem).report_json,
      matchesExt ".json" (h.rel.getLastD "") = true) ∧
    (∀ h ∈ (gather_candidates pbipDirPath sibs stem).report_tmdl,
      matchesExt ".tmdl" (h.rel.getLastD "") = true) ∧
    (∀ h ∈ (gather_candidates pbipDirPath sibs stem).sem_json,
      matchesExt ".json" (h.rel.getLastD "") = true) ∧
    (∀ h ∈ (gather_candidates pbipDirPath sibs stem).sem_tmdl,
      matchesExt ".tmdl" (h.rel.getLastD "") = true) := by
  refine ⟨?_, ?_, ?_, ?_, ?_, ?_, ?_, ?_, ?_, ?_, ?_, ?_⟩
  · intro d hd; unfold categoryRoots; rw [hd]
  · intro hd; unfold categoryRoots; rw [hd]
  · intro d hd; unfold categoryRoots; rw [hd]
  · intro hd; unfold categoryRoots; rw [hd]
  · intro p; exact count_flatMap_rel pbipDirPath ".json" p _
  · intro p; exact count_flatMap_rel pbipDirPath ".tmdl" p _
  · intro p; exact count_flatMap_rel pbipDirPath ".json" p _
  · intro p; exact count_flatMap_rel pbipDirPath ".tmdl" p _
  all_goals
    intro h hm
    obtain ⟨r, -, hr⟩ := List.mem_flatMap.1 hm
    exact rglobHits_last_matches hr

/-- Witness for C5: exact-named root wins; fallback pattern roots; and a
duplicate file name across two fallback roots is kept twice. -/
theorem C5_gatherer_witness :
    categoryRoots [.dir "S.Report" [.file "x.json"]] ("S" ++ ".Report") ".Report" =
      [.dir "S.Report" [.file "x.json"]] ∧
    (((gather_candidates ["b"]
        [.dir "u.Report" [.file "x.json"], .dir "v.Report" [.file "x.json"]]
        "S").report_json.map GHit.rel).count ["b", "u.Report", "x.json"]) = 1 := by
  refine ⟨(C5_gatherer ["b"] [.dir "S.Report" [.file "x.json"]] "S").1 _ rfl, ?_⟩
  rw [(C5_gatherer ["b"]
    [.dir "u.Report" [.file "x.json"], .dir "v.Report" [.file "x.json"]] "S").2.2.2.2.1
    ["b", "u.Report", "x.json"]]
  rfl

/-! ## C4: the Descriptor Locator -/

theorem partsLtB_singleton (a b : String) : partsLtB [a] [b] = strLtB a b := by
  rw [partsLtB]
  by_cases h1 : strLtB a b = true
  · rw [if_pos h1, h1]
  · rw [if_neg h1]
    by_cases h2 : strLtB b a = true
    · rw [if_pos h2]
      rw [Bool.not_eq_true] at h1
      rw [h1]
    · rw [if_neg h2]
      rw [Bool.not_eq_true] at h1
      rw [h1, partsLtB]

theorem joinParts_singleton (a : String) : joinParts [a] = a := rfl

theorem rglobHits_cons (e : List String × List FSNode)
    (ds : List (List String × List FSNode)) (ext : String) :
    rglobHits (e :: ds) ext = matchesIn ext e ++ rglobHits ds ext := by
  simp [rglobHits]

theorem direct_sub_all (cs : List FSNode) {h : GHit}
    (hm : h ∈ rglobHits [([], cs)] ".pbip") :
    h ∈ rglobHits (dirsFromRoot cs) ".pbip" := by
  rw [rglobHits_cons] at hm
  unfold dirsFromRoot
  rw [rglobHits_cons]
  rcases List.mem_append.1 hm with hm' | hm'
  · exact List.mem_append.2 (Or.inl hm')
  · simp [rglobHits] at hm'

/-- C4, counterexample to the claim as stated: with no direct and no
sibling-qualified descriptor, tier 3 applies; the tree below has exactly
the two candidates `a.x/f.pbip` and `a/b/f.pbip`, the code (Python path
order, componentwise) picks `a/b/f.pbip`, yet by full path string
`"a.x/f.pbip" < "a/b/f.pbip"`, so the claimed full-path-string ordering
is violated. -/
theorem C4_locator_counterexample :
    (find_first_pbip
        [.dir "a.x" [.file "f.pbip"], .dir "a" [.dir "b" [.file "f.pbip"]]]).map GHit.rel =
      some ["a", "b", "f.pbip"] ∧
    ((rglobHits (dirsFromRoot
        [.dir "a.x" [.file "f.pbip"], .dir "a" [.dir "b" [.file "f.pbip"]]]) ".pbip").map
      GHit.rel) = [["a.x", "f.pbip"], ["a", "b", "f.pbip"]] ∧
    ((rglobHits [([], [.dir "a.x" [.file "f.pbip"], .dir "a" [.dir "b" [.file "f.pbip"]]])]
        ".pbip").map GHit.rel) = [] ∧
    (((rglobHits (dirsFromRoot
        [.dir "a.x" [.file "f.pbip"], .dir "a" [.dir "b" [.file "f.pbip"]]]) ".pbip").filter
      hasStdSiblings).map GHit.rel) = [] ∧
    strLtB (joinParts ["a.x", "f.pbip"]) (joinParts ["a", "b", "f.pbip"]) = true := by
  refine ⟨by decide, by decide, by decide, by decide, by decide⟩

/-- C4, amended: the three-tier search is as claimed, except that
"lexicographically first" means Python's `Path` ordering — lexicographic
on the tuple of path components — not on the full path string; for
tier 1, whose candidates are all directly inside the project folder,
the two orderings agree, and the returned hit is minimal in both. -/
theorem C4_locator_amended (cs : List FSNode) :
    (rglobHits [([], cs)] ".pbip" ≠ [] →
      ∃ h, find_first_pbip cs = some h ∧ h ∈ rglobHits [([], cs)] ".pbip" ∧
        (∀ h' ∈ rglobHits [([], cs)] ".pbip", partsLtB h'.rel h.rel = false) ∧
        (∀ h' ∈ rglobHits [([], cs)] ".pbip",
          strLtB (joinParts h'.rel) (joinParts h.rel) = false)) ∧
    (rglobHits [([], cs)] ".pbip" = [] →
      (rglobHits (dirsFromRoot cs) ".pbip").filter hasStdSiblings ≠ [] →
      ∃ h, find_first_pbip cs = some h ∧
        h ∈ (rglobHits (dirsFromRoot cs) ".pbip").filter hasStdSiblings ∧
        (∀ h' ∈ (rglobHits (dirsFromRoot cs) ".pbip").filter hasStdSiblings,
          partsLtB h'.rel h.rel = false)) ∧
    (rglobHits [([], cs)] ".pbip" = [] →
      (rglobHits (dirsFromRoot cs) ".pbip").filter hasStdSiblings = [] →
      rglobHits (dirsFromRoot cs) ".pbip" ≠ [] →
      ∃ h, find_first_pbip cs = some h ∧ h ∈ rglobHits (dirsFromRoot cs) ".pbip" ∧
        (∀ h' ∈ rglobHits (dirsFromRoot cs) ".pbip", partsLtB h'.rel h.rel = false)) ∧
    (rglobHits (dirsFromRoot cs) ".pbip" = [] → find_first_pbip cs = none) := by
  refine ⟨?_, ?_, ?_, ?_⟩
  · intro hne
    cases hmin : pyMinBy hitLt (rglobHits [([], cs)] ".pbip") with
    | none => exact absurd (pyMinBy_none hitLt hmin) hne
    | some m =>
      obtain ⟨hmem, hminim⟩ := @pyMinBy_spec GHit (List String) GHit.rel partsLtB
        partsLtB_trans partsLtB_trichotomy partsLtB_irrefl _ _ hmin
      refine ⟨m, ?_, hmem, hminim, ?_⟩
      · unfold find_first_pbip
        rw [hmin]
      · intro h' hm'
        obtain ⟨e', he', c', -, -, rfl⟩ := mem_rglobHits hm'
        obtain ⟨e, he, c, -, -, hme⟩ := mem_rglobHits hmem
        simp at he' he
        subst he'
        subst he
        have := hminim _ hm'
        rw [hme] at this ⊢
        simpa [partsLtB_singleton, joinParts_singleton] using this
  · intro hdirect hne
    cases hmin : pyMinBy hitLt
        ((rglobHits (dirsFromRoot cs) ".pbip").filter hasStdSiblings) with
    | none => exact absurd (pyMinBy_none hitLt hmin) hne
    | some m =>
      obtain ⟨hmem, hminim⟩ := @pyMinBy_spec GHit (List String) GHit.rel partsLtB
        partsLtB_trans partsLtB_trichotomy partsLtB_irrefl _ _ hmin
      refine ⟨m, ?_, hmem, hminim⟩
      unfold find_first_pbip
      rw [hdirect]
      rw [show pyMinBy hitLt ([] : List GHit) = none from rfl, hmin]
  · intro hdirect htier2 hne
    cases hmin : pyMinBy hitLt (rglobHits (dirsFromRoot cs) ".pbip") with
    | none => exact absurd (pyMinBy_none hitLt hmin) hne
    | some m =>
      obtain ⟨hmem, hminim⟩ := @pyMinBy_spec GHit (List String) GHit.rel partsLtB
        partsLtB_trans partsLtB_trichotomy partsLtB_irrefl _ _ hmin
      refine ⟨m, ?_, hmem, hminim⟩
      unfold find_first_pbip
      rw [hdirect, htier2]
      rw [show pyMinBy hitLt ([] : List GHit) = none from rfl, hmin]
  · intro hall
    have hdirect : rglobHits [([], cs)] ".pbip" = [] := by
      cases he : rglobHits [([], cs)] ".pbip" with
      | nil => rfl
      | cons x xs =>
        exact absurd (direct_sub_all cs (he ▸ List.mem_cons_self x xs)) (by rw [hall]; simp)
    unfold find_first_pbip
    rw [hdirect, hall]
    rfl

/-- Witness for C4 (amended), tier 1 at a concrete tree: the direct
descriptor wins over the nested one. -/
theorem C4_locator_amended_witness :
    ∃ h, find_first_pbip [.file "z.pbip", .dir "sub" [.file "a.pbip"]] = some h ∧
      h ∈ rglobHits [([], [.file "z.pbip", .dir "sub" [.file "a.pbip"]])] ".pbip" := by
  have hne : rglobHits [([], [.file "z.pbip", .dir "sub" [.file "a.pbip"]])] ".pbip" ≠ [] := by
    intro he
    exact absurd (congrArg List.length he) (by decide)
  obtain ⟨h, h1, h2, -, -⟩ :=
    (C4_locator_amended [.file "z.pbip", .dir "sub" [.file "a.pbip"]]).1 hne
  exact ⟨h, h1, h2⟩

theorem copy_many_false_spec (verbose : Bool) (base : String) (destDir : List String) :
    ∀ (cands : List Cand) (leaf : List String) (dirs : List (List String)),
      (copy_many false verbose base destDir cands leaf dirs).leaf =
        leaf ++ (copy_many false verbose base destDir cands leaf dirs).performed.map
          Prod.snd ∧
      ((copy_many false verbose base destDir cands leaf dirs).performed.map
        Prod.snd).Nodup ∧
      (∀ n ∈ (copy_many false verbose base destDir cands leaf dirs).performed.map
        Prod.snd, n ∉ leaf) := by
  intro cands
  induction cands with
  | nil =>
    intro leaf dirs
    exact ⟨by simp [copy_many], by simp [copy_many], by simp [copy_many]⟩
  | cons c rest ih =>
    intro leaf dirs
    rw [copy_many]
    by_cases h1 : c.ex = false
    · rw [if_pos h1]
      exact ih leaf dirs
    · rw [if_neg h1]
      by_cases h2 : c.isf = false
      · rw [if_pos h2]
        exact ih leaf dirs
      · rw [if_neg h2]
        simp only [if_neg Bool.false_ne_true]
        have hres := (next_available_path_spec leaf
          (build_dest_name base (c.path.getLastD ""))).1
        obtain ⟨hl, hnd, hni⟩ := ih
          (leaf ++ [next_available_path leaf (build_dest_name base (c.path.getLastD ""))])
          (ensure_dir dirs destDir)
        refine ⟨?_, ?_, ?_⟩
        · show (copy_many false verbose base destDir rest _ _).leaf = _
          rw [hl, List.map_cons, List.append_assoc]
          rfl
        · show (List.map Prod.snd (_ :: (copy_many false verbose base destDir rest _ _
            ).performed)).Nodup
          rw [List.map_cons]
          refine List.nodup_cons.2 ⟨?_, hnd⟩
          intro hc
          exact hni _ hc (by simp)
        · intro n hn
          rw [List.map_cons] at hn
          rcases List.mem_cons.1 hn with rfl | hn'
          · exact hres
          · intro hnleaf
            exact hni n hn' (List.mem_append.2 (Or.inl hnleaf))

theorem perfNames_append (L : LeafT) (a b : List (LeafT × List String × String)) :
    perfNames L (a ++ b) = perfNames L a ++ perfNames L b :=
  List.filterMap_append a b _

theorem perfNames_tag_eq (L : LeafT) (x : List (List String × String)) :
    perfNames L (x.map (fun pr => (L, pr.1, pr.2))) = x.map Prod.snd := by
  unfold perfNames
  induction x with
  | nil => rfl
  | cons p ps ih => simp [List.filterMap_cons, ih]

theorem perfNames_tag_ne (L T : LeafT) (hne : T ≠ L) (x : List (List String × String)) :
    perfNames L (x.map (fun pr => (T, pr.1, pr.2))) = [] := by
  unfold perfNames
  induction x with
  | nil => rfl
  | cons p ps ih => simp [List.filterMap_cons, hne, ih]

/-- Per-leaf specification of the four consecutive copier invocations of
one project step, abstracted over the four copier results. -/
theorem fourLeaf_spec (fs : DestFS) (A B C D : CopyResult) (L : LeafT)
    (hA : A.leaf = fs.reportJson ++ A.performed.map Prod.snd)
    (hAnd : (A.performed.map Prod.snd).Nodup)
    (hAdj : ∀ n ∈ A.performed.map Prod.snd, n ∉ fs.reportJson)
    (hB : B.leaf = fs.reportTmdl ++ B.performed.map Prod.snd)
    (hBnd : (B.performed.map Prod.snd).Nodup)
    (hBdj : ∀ n ∈ B.performed.map Prod.snd, n ∉ fs.reportTmdl)
    (hC : C.leaf = fs.semJson ++ C.performed.map Prod.snd)
    (hCnd : (C.performed.map Prod.snd).Nodup)
    (hCdj : ∀ n ∈ C.performed.map Prod.snd, n ∉ fs.semJson)
    (hD : D.leaf = fs.semTmdl ++ D.performed.map Prod.snd)
    (hDnd : (D.performed.map Prod.snd).Nodup)
    (hDdj : ∀ n ∈ D.performed.map Prod.snd, n ∉ fs.semTmdl) :
    ({ fs with
        reportJson := A.leaf,
        reportTmdl := B.leaf,
        semJson := C.leaf,
        semTmdl := D.leaf,
        dirs := D.dirs } : DestFS).leafOf L =
      fs.leafOf L ++ perfNames L
        (A.performed.map (fun pr => (LeafT.reportJson, pr.1, pr.2)) ++
          B.performed.map (fun pr => (LeafT.reportTmdl, pr.1, pr.2)) ++
          C.performed.map (fun pr => (LeafT.semJson, pr.1, pr.2)) ++
          D.performed.map (fun pr => (LeafT.semTmdl, pr.1, pr.2))) ∧
    (perfNames L
        (A.performed.map (fun pr => (LeafT.reportJson, pr.1, pr.2)) ++
          B.performed.map (fun pr => (LeafT.reportTmdl, pr.1, pr.2)) ++
          C.performed.map (fun pr => (LeafT.semJson, pr.1, pr.2)) ++
          D.performed.map (fun pr => (LeafT.semTmdl, pr.1, pr.2)))).Nodup ∧
    (∀ n ∈ perfNames L
        (A.performed.map (fun pr => (LeafT.reportJson, pr.1, pr.2)) ++
          B.performed.map (fun pr => (LeafT.reportTmdl, pr.1, pr.2)) ++
          C.performed.map (fun pr => (LeafT.semJson, pr.1, pr.2)) ++
          D.performed.map (fun pr => (LeafT.semTmdl, pr.1, pr.2))),
      n ∉ fs.leafOf L) := by
  cases L with
  | reportJson =>
    rw [perfNames_append, perfNames_append, perfNames_append,
      perfNames_tag_eq,
      perfNames_tag_ne _ _ (by intro hc; cases hc),
      perfNames_tag_ne _ _ (by intro hc; cases hc),
      perfNames_tag_ne _ _ (by intro hc; cases hc)]
    simp only [List.append_nil]
    exact ⟨hA, hAnd, hAdj⟩
  | reportTmdl =>
    rw [perfNames_append, perfNames_append, perfNames_append,
      perfNames_tag_eq,
      perfNames_tag_ne _ _ (by intro hc; cases hc),
      perfNames_tag_ne _ _ (by intro hc; cases hc),
      perfNames_tag_ne _ _ (by intro hc; cases hc)]
    simp only [List.append_nil, List.nil_append]
    exact ⟨hB, hBnd, hBdj⟩
  | semJson =>
    rw [perfNames_append, perfNames_append, perfNames_append,
      perfNames_tag_eq,
      perfNames_tag_ne _ _ (by intro hc; cases hc),
      perfNames_tag_ne _ _ (by intro hc; cases hc),
      perfNames_tag_ne _ _ (by intro hc; cases hc)]
    simp only [List.append_nil, List.nil_append]
    exact ⟨hC, hCnd, hCdj⟩
  | semTmdl =>
    rw [perfNames_append, perfNames_append, perfNames_append,
      perfNames_tag_eq,
      perfNames_tag_ne _ _ (by intro hc; cases hc),
      perfNames_tag_ne _ _ (by intro hc; cases hc),
      perfNames_tag_ne _ _ (by intro hc; cases hc)]
    simp only [List.append_nil, List.nil_append]
    exact ⟨hD, hDnd, hDdj⟩

theorem processProject_false_spec (root : List String) (verbose : Bool) (fs : DestFS)
    (pn : String) (cs : List FSNode) (L : LeafT) :
    (processProject root false verbose fs pn cs).1.leafOf L =
      fs.leafOf L ++ perfNames L (processProject root false verbose fs pn cs).2.2.1 ∧
    (perfNames L (processProject root false verbose fs pn cs).2.2.1).Nodup ∧
    (∀ n ∈ perfNames L (processProject root false verbose fs pn cs).2.2.1,
      n ∉ fs.leafOf L) := by
  cases hf : find_first_pbip cs with
  | none =>
    unfold processProject
    rw [hf]
    exact ⟨by simp [perfNames], by simp [perfNames], by simp [perfNames]⟩
  | some h =>
    unfold processProject
    rw [hf]
    exact fourLeaf_spec fs _ _ _ _ L
      (copy_many_false_spec _ _ _ _ _ _).1
      (copy_many_false_spec _ _ _ _ _ _).2.1
      (copy_many_false_spec _ _ _ _ _ _).2.2
      (copy_many_false_spec _ _ _ _ _ _).1
      (copy_many_false_spec _ _ _ _ _ _).2.1
      (copy_many_false_spec _ _ _ _ _ _).2.2
      (copy_many_false_spec _ _ _ _ _ _).1
      (copy_many_false_spec _ _ _ _ _ _).2.1
      (copy_many_false_spec _ _ _ _ _ _).2.2
      (copy_many_false_spec _ _ _ _ _ _).1
      (copy_many_false_spec _ _ _ _ _ _).2.1
      (copy_many_false_spec _ _ _ _ _ _).2.2

theorem collectProjects_false_spec (root : List String) (verbose : Bool) :
    ∀ (ps : List FSNode) (fs : DestFS) (L : LeafT),
      (collectProjects root false verbose ps fs).1.leafOf L =
        fs.leafOf L ++ perfNames L (collectProjects root false verbose ps fs).2.2.1 ∧
      (perfNames L (collectProjects root false verbose ps fs).2.2.1).Nodup ∧
      (∀ n ∈ perfNames L (collectProjects root false verbose ps fs).2.2.1,
        n ∉ fs.leafOf L) := by
  intro ps
  induction ps with
  | nil =>
    intro fs L
    exact ⟨by simp [collectProjects, perfNames], by simp [collectProjects, perfNames],
      by simp [collectProjects, perfNames]⟩
  | cons p rest ih =>
    intro fs L
    rw [collectProjects]
    obtain ⟨h1, h2, h3⟩ := processProject_false_spec root verbose fs p.nameOf p.childrenOf L
    obtain ⟨h4, h5, h6⟩ := ih (processProject root false verbose fs p.nameOf p.childrenOf).1 L
    rw [h1] at h4 h6
    refine ⟨?_, ?_, ?_⟩
    · show (collectProjects root false verbose rest _).1.leafOf L = _
      rw [h4, perfNames_append, List.append_assoc]
    · rw [perfNames_append]
      refine List.Nodup.append h2 h5 ?_
      intro a ha hb
      exact h6 a hb (List.mem_append.2 (Or.inr ha))
    · intro n hn
      rw [perfNames_append] at hn
      rcases List.mem_append.1 hn with hn' | hn'
      · exact h3 n hn'
      · intro hleaf
        exact h6 n hn' (List.mem_append.2 (Or.inl hleaf))

theorem leafOf_dirs_update (fs : DestFS) (d : List (List String)) (L : LeafT) :
    ({ fs with dirs := d } : DestFS).leafOf L = fs.leafOf L := by
  cases L <;> rfl

theorem leafOf_dm_update (fs : DestFS) (d : List (List String))
    (m : Option (List (List String))) (L : LeafT) :
    ({ fs with dirs := d, manifestFile := m } : DestFS).leafOf L = fs.leafOf L := by
  cases L <;> rfl

theorem collect_false_spec (root : List String) (cs : List FSNode) (verbose : Bool)
    (fs0 : DestFS) (L : LeafT) :
    (collect root cs false verbose fs0).fs.leafOf L =
      fs0.leafOf L ++ perfNames L (collect root cs false verbose fs0).performed ∧
    (perfNames L (collect root cs false verbose fs0).performed).Nodup ∧
    (∀ n ∈ perfNames L (collect root cs false verbose fs0).performed,
      n ∉ fs0.leafOf L) := by
  obtain ⟨h1, h2, h3⟩ := collectProjects_false_spec root verbose (cs.filter FSNode.isDirN)
    { fs0 with
        dirs := [LeafT.reportJson, LeafT.reportTmdl, LeafT.semJson, LeafT.semTmdl].foldl
          (fun ds M => ensure_dir ds (leafDirPath root M)) fs0.dirs } L
  rw [leafOf_dirs_update] at h1 h3
  dsimp only [collect]
  rw [if_neg Bool.false_ne_true]
  refine ⟨?_, h2, h3⟩
  rw [leafOf_dm_update]
  exact h1

/-- **C2.** Collision-safe copying.  First conjunct: the resolver returns
the target itself when free, and otherwise the probe
`stem-i suffix` (the counter inserted before the final extension, as
split by `pyStem`/`pySuffix`) for the least free counter `i ≥ 1`; the
result never collides with an existing entry.  Second conjunct: in a
(non-dry) run every leaf directory ends as its initial entries plus the
performed copies' names, which are pairwise distinct and disjoint from
the initial entries — no existing destination file is ever overwritten
within a run.  Third conjunct: running the orchestrator a second time
against the same root overwrites neither the initial files nor any file
created by the first run. -/
theorem C2_collision_safe :
    (∀ (leaf : List String) (name : String),
      next_available_path leaf name ∉ leaf ∧
      (name ∉ leaf → next_available_path leaf name = name) ∧
      (name ∈ leaf → ∃ i, 1 ≤ i ∧
        next_available_path leaf name = probeName (pyStem name) (pySuffix name) i ∧
        probeName (pyStem name) (pySuffix name) i ∉ leaf ∧
        (∀ j, 1 ≤ j → j < i → probeName (pyStem name) (pySuffix name) j ∈ leaf))) ∧
    (∀ (root : List String) (cs : List FSNode) (verbose : Bool) (fs0 : DestFS) (L : LeafT),
      (collect root cs false verbose fs0).fs.leafOf L =
        fs0.leafOf L ++ perfNames L (collect root cs false verbose fs0).performed ∧
      (perfNames L (collect root cs false verbose fs0).performed).Nodup ∧
      (∀ n ∈ perfNames L (collect root cs false verbose fs0).performed,
        n ∉ fs0.leafOf L)) ∧
    (∀ (root : List String) (cs : List FSNode) (verbose : Bool) (fs0 : DestFS) (L : LeafT),
      ∀ n ∈ perfNames L (collect root cs false verbose
          (collect root cs false verbose fs0).fs).performed,
        n ∉ fs0.leafOf L ∧
        n ∉ perfNames L (collect root cs false verbose fs0).performed) := by
  refine ⟨?_, ?_, ?_⟩
  · intro leaf name
    obtain ⟨ha, hb, hc⟩ := next_available_path_spec leaf name
    exact ⟨ha, hb, hc⟩
  · intro root cs verbose fs0 L
    exact collect_false_spec root cs verbose fs0 L
  · intro root cs verbose fs0 L n hn
    have h2 := (collect_false_spec root cs verbose
      (collect root cs false verbose fs0).fs L).2.2 n hn
    rw [(collect_false_spec root cs verbose fs0 L).1] at h2
    constructor
    · intro hc
      exact h2 (List.mem_append.2 (Or.inl hc))
    · intro hc
      exact h2 (List.mem_append.2 (Or.inr hc))

/-- Witness for C2 at concrete inputs: a colliding resolution takes the
`-1` suffix, and a second run against the same project tree produces a
suffixed name distinct from the first run's output. -/
theorem C2_collision_safe_witness :
    next_available_path ["x_a.json"] "x_a.json" ∉ ["x_a.json"] ∧
    ("Sales_p.json" ∉ perfNames LeafT.reportJson
      (collect ["r"]
        [.dir "Sales" [.file "Sales.pbip",
          .dir "Sales.Report" [.file "p.json"],
          .dir "Sales.SemanticModel" []]] false true
        (collect ["r"]
          [.dir "Sales" [.file "Sales.pbip",
            .dir "Sales.Report" [.file "p.json"],
            .dir "Sales.SemanticModel" []]] false true
          ⟨[], [], [], [], [], none⟩).fs).performed) := by
  refine ⟨(C2_collision_safe.1 ["x_a.json"] "x_a.json").1, ?_⟩
  intro hmem
  exact ((C2_collision_safe.2.2 ["r"]
      [.dir "Sales" [.file "Sales.pbip",
        .dir "Sales.Report" [.file "p.json"],
        .dir "Sales.SemanticModel" []]] true
      ⟨[], [], [], [], [], none⟩ LeafT.reportJson) "Sales_p.json" hmem).2
    (by decide)

theorem plansOf_append (a b : List Diag) : plansOf (a ++ b) = plansOf a ++ plansOf b :=
  List.filterMap_append a b _

theorem copy_many_dry_plans (base : String) (destDir : List String) :
    ∀ (cands : List Cand) (leaf : List String) (dirs : List (List String)),
      plansOf (copy_many true true base destDir cands leaf dirs).diags =
        (dryPlans base cands leaf).map (fun pr => (pr.1, destDir ++ [pr.2])) := by
  intro cands
  induction cands with
  | nil => intro leaf dirs; rfl
  | cons c rest ih =>
    intro leaf dirs
    rw [copy_many, dryPlans]
    by_cases h1 : c.ex = false
    · rw [if_pos h1, if_pos h1]
      show plansOf (Diag.skipMissing c.path :: _) = _
      rw [show ∀ ds, plansOf (Diag.skipMissing c.path :: ds) = plansOf ds from
        fun ds => rfl]
      exact ih leaf dirs
    · rw [if_neg h1, if_neg h1]
      by_cases h2 : c.isf = false
      · rw [if_pos h2, if_pos h2]
        show plansOf (Diag.skipNotFile c.path :: _) = _
        rw [show ∀ ds, plansOf (Diag.skipNotFile c.path :: ds) = plansOf ds from
          fun ds => rfl]
        exact ih leaf dirs
      · rw [if_neg h2, if_neg h2]
        simp only [if_pos rfl]
        show (c.path,
            destDir ++ [next_available_path leaf (build_dest_name base
              (c.path.getLastD ""))]) ::
          plansOf (copy_many true true base destDir rest leaf dirs).diags = _
        rw [ih leaf dirs, List.map_cons]

theorem copy_many_perf_sources (verbose : Bool) (base : String) (destDir : List String) :
    ∀ (cands : List Cand) (leaf : List String) (dirs : List (List String)),
      (copy_many false verbose base destDir cands leaf dirs).performed.map Prod.fst =
        (cands.filter (fun c => c.ex && c.isf)).map Cand.path := by
  intro cands
  induction cands with
  | nil => intro leaf dirs; rfl
  | cons c rest ih =>
    intro leaf dirs
    rw [copy_many]
    by_cases h1 : c.ex = false
    · rw [if_pos h1]
      rw [List.filter_cons_of_neg (by simp [h1])]
      exact ih leaf dirs
    · rw [if_neg h1]
      by_cases h2 : c.isf = false
      · rw [if_pos h2]
        rw [List.filter_cons_of_neg (by simp [h2])]
        exact ih leaf dirs
      · rw [if_neg h2]
        simp only [if_neg Bool.false_ne_true]
        rw [List.filter_cons_of_pos
          (by simp only [Bool.and_eq_true]
              exact ⟨by simpa using h1, by simpa using h2⟩)]
        show List.map Prod.fst ((c.path,
            next_available_path leaf (build_dest_name base (c.path.getLastD ""))) ::
          (copy_many false verbose base destDir rest
            (leaf ++ [next_available_path leaf (build_dest_name base
              (c.path.getLastD ""))]) (ensure_dir dirs destDir)).performed) = _
        rw [List.map_cons, List.map_cons, ih]

theorem dryPlans_sources (base : String) :
    ∀ (cands : List Cand) (leaf : List String),
      (dryPlans base cands leaf).map Prod.fst =
        (cands.filter (fun c => c.ex && c.isf)).map Cand.path := by
  intro cands
  induction cands with
  | nil => intro leaf; rfl
  | cons c rest ih =>
    intro leaf
    rw [dryPlans]
    by_cases h1 : c.ex = false
    · rw [if_pos h1, List.filter_cons_of_neg (by simp [h1])]
      exact ih leaf
    · rw [if_neg h1]
      by_cases h2 : c.isf = false
      · rw [if_pos h2, List.filter_cons_of_neg (by simp [h2])]
        exact ih leaf
      · rw [if_neg h2, List.filter_cons_of_pos
          (by simp only [Bool.and_eq_true]
              exact ⟨by simpa using h1, by simpa using h2⟩),
          List.map_cons, List.map_cons, ih]

/-- Under no within-run destination collisions, the real run performs
exactly the dry-planned operations. -/
theorem copy_many_real_eq_dry (verbose : Bool) (base : String) (destDir : List String) :
    ∀ (cands : List Cand) (leaf D : List String) (dirs : List (List String)),
      (∀ n ∈ D, n ∉ leaf) →
      (D ++ (dryPlans base cands leaf).map Prod.snd).Nodup →
      (copy_many false verbose base destDir cands (leaf ++ D) dirs).performed =
        dryPlans base cands leaf := by
  intro cands
  induction cands with
  | nil => intro leaf D dirs hD hnd; rfl
  | cons c rest ih =>
    intro leaf D dirs hD hnd
    rw [copy_many, dryPlans]
    by_cases h1 : c.ex = false
    · rw [if_pos h1, if_pos h1]
      exact ih leaf D dirs hD (by rw [dryPlans, if_pos h1] at hnd; exact hnd)
    · rw [if_neg h1, if_neg h1]
      by_cases h2 : c.isf = false
      · rw [if_pos h2, if_pos h2]
        exact ih leaf D dirs hD
          (by rw [dryPlans, if_neg h1, if_pos h2] at hnd; exact hnd)
      · rw [if_neg h2, if_neg h2]
        simp only [if_neg Bool.false_ne_true]
        have hnd' : (D ++ (next_available_path leaf
            (build_dest_name base (c.path.getLastD "")) ::
            (dryPlans base rest leaf).map Prod.snd)).Nodup := by
          rw [dryPlans, if_neg h1, if_neg h2, List.map_cons] at hnd
          exact hnd
        have hdisj := (List.nodup_append.1 hnd').2.2
        have hres := next_available_path_spec leaf
          (build_dest_name base (c.path.getLastD ""))
        have hmono : next_available_path
            (leaf ++ D) (build_dest_name base (c.path.getLastD "")) =
            next_available_path leaf (build_dest_name base (c.path.getLastD "")) := by
          apply next_available_path_mono
          · intro x hx
            exact List.mem_append.2 (Or.inl hx)
          · intro hc
            rcases List.mem_append.1 hc with hc' | hc'
            · exact hres.1 hc'
            · exact hdisj hc' (by simp)
        rw [hmono]
        have hstep : (leaf ++ D) ++
            [next_available_path leaf (build_dest_name base (c.path.getLastD ""))] =
            leaf ++ (D ++
              [next_available_path leaf (build_dest_name base (c.path.getLastD ""))]) := by
          rw [List.append_assoc]
        show (c.path, _) :: _ = _
        rw [hstep]
        rw [ih leaf
          (D ++ [next_available_path leaf (build_dest_name base (c.path.getLastD ""))])
          (ensure_dir dirs destDir) ?hD ?hnd]
        case hD =>
          intro n hn
          rcases List.mem_append.1 hn with hn' | hn'
          · exact hD n hn'
          · rw [List.mem_singleton] at hn'
            subst hn'
            exact hres.1
        case hnd =>
          rw [List.append_assoc, List.singleton_append]
          exact hnd'

/-- C6, counterexample to the claim as stated: with two fallback Report
roots each containing an `x.json`, both dry-run planned copies resolve
to the same destination `a_x.json` (the dry run never updates the
directory state), while the real run gives the second copy the suffixed
destination `a_x-1.json`; the recorded copy diagnostics of the two runs
differ. -/
theorem C6_dry_run_counterexample :
    plansOf (collect ["r"]
        [.dir "P" [.file "a.pbip", .dir "b.Report" [.file "x.json"],
          .dir "c.Report" [.file "x.json"]]] true true
        ⟨[], [], [], [], [], none⟩).diags ≠
      plansOf (collect ["r"]
        [.dir "P" [.file "a.pbip", .dir "b.Report" [.file "x.json"],
          .dir "c.Report" [.file "x.json"]]] false true
        ⟨[], [], [], [], [], none⟩).diags := by decide

/-- C6, amended, at the level of one copier invocation: a dry run records
as diagnostics exactly the planned operations resolved against the
initial directory state; the real run performs copies of exactly the
same source sequence; and whenever the dry-resolved destination names
are pairwise distinct (no within-invocation collision), the real run
performs exactly the dry-planned (source, destination) pairs.  (With
collisions, as in the counterexample, the runs diverge.) -/
theorem C6_dry_run_amended (base : String) (destDir : List String) (cands : List Cand)
    (leaf : List String) (dirs dirs' : List (List String)) :
    plansOf (copy_many true true base destDir cands leaf dirs).diags =
      (dryPlans base cands leaf).map (fun pr => (pr.1, destDir ++ [pr.2])) ∧
    (copy_many false true base destDir cands leaf dirs').performed.map Prod.fst =
      (dryPlans base cands leaf).map Prod.fst ∧
    (((dryPlans base cands leaf).map Prod.snd).Nodup →
      (copy_many false true base destDir cands leaf dirs').performed =
        dryPlans base cands leaf) := by
  refine ⟨copy_many_dry_plans base destDir cands leaf dirs, ?_, ?_⟩
  · rw [copy_many_perf_sources true base destDir cands leaf dirs',
      dryPlans_sources base cands leaf]
  · intro hnd
    have := copy_many_real_eq_dry true base destDir cands leaf [] dirs'
      (by intro n hn; cases hn) (by rw [List.nil_append]; exact hnd)
    rw [List.append_nil] at this
    exact this

/-- Witness for C6 (amended) at a concrete collision-free invocation. -/
theorem C6_dry_run_amended_witness :
    (copy_many false true "b" ["inv", "report", "json_files"]
        [⟨["r", "P", "x.json"], true, true⟩] [] []).performed =
      dryPlans "b" [⟨["r", "P", "x.json"], true, true⟩] [] := by
  exact (C6_dry_run_amended "b" ["inv", "report", "json_files"]
    [⟨["r", "P", "x.json"], true, true⟩] [] [] []).2.2 (by decide)

end CollectInventory
